import Mathlib

/-!
The gateway `facegit-http`: the Git smart/dumb HTTP gateway of `server/server.go`

A shallow embedding of the request dispatcher, the protocol handlers, the
packet-line codec and the header policies, followed by the theorems about them.

Conventions of the embedding.

* A Go `string` and a Go `[]byte` are byte sequences.  Both are modelled as
  `List Char`, one `Char` per byte; every literal of the program is ASCII, so a
  literal is the list of its characters and `len` is `List.length`.
* The outside world (file system, clock, child processes, the standard
  library's file server and gzip reader) is an explicit value of type `Env`
  that the handlers read; every call that leaves the process is recorded, in
  order, in the `events` of the `World` that the handlers thread through.
* `range services` iterates a Go map, whose order is not fixed by the language;
  the dispatcher therefore takes the order of iteration as an argument.
* `log.Printf`, `log.Println` and `fmt.Println` only write to the process log
  and are left out.
-/

namespace FacegitHttp

/-- A Go string (or byte slice): the list of its bytes. -/
abbrev GoString := List Char

/-! ## The parts of the Go standard library that the handlers compute with -/

/-- Go `strconv.FormatInt(n, 16)` for a non-negative `n`: the lowercase
hexadecimal digits of `n`, most significant first, no padding. -/
def FormatInt16 (n : Nat) : GoString := Nat.toDigits 16 n

/-- Go `fmt.Sprintf("%d", n)` for a signed integer. -/
def fmtInt : Int → GoString
  | Int.ofNat n => Nat.toDigits 10 n
  | Int.negSucc n => '-' :: Nat.toDigits 10 (n + 1)

/-- Go `strings.Repeat(s, count)`. -/
def stringsRepeat (s : GoString) : Nat → GoString
  | 0 => []
  | n + 1 => s ++ stringsRepeat s n

/-- Go `strings.HasPrefix(s, pre)`. -/
def stringsHasPrefix (s pre : GoString) : Bool := pre.isPrefixOf s

/-- Go `strings.Replace(s, old, new, 1)`: the first occurrence of `old` in `s`
(searching from the left) is replaced by `new`; `s` is returned unchanged when
`old` does not occur.  An empty `old` occurs at the very start. -/
def stringsReplaceFirst : GoString → GoString → GoString → GoString
  | [], old, new => if old = [] then new else []
  | c :: t, old, new =>
    if old.isPrefixOf (c :: t) then new ++ (c :: t).drop old.length
    else c :: stringsReplaceFirst t old new

/-- Splits a path at every `/`. -/
def splitSlash : GoString → List GoString
  | [] => [[]]
  | c :: t =>
    match splitSlash t with
    | [] => [[]]
    | seg :: segs => if c = '/' then [] :: seg :: segs else (c :: seg) :: segs

/-- The element stack of Go `path.Clean`: `.` and empty elements are dropped,
`..` removes the element before it, is dropped at the root of a rooted path and
is kept at the front of a relative one.  The stack is held innermost first. -/
def cleanStack (rooted : Bool) : List GoString → List GoString → List GoString
  | [], st => st
  | seg :: segs, st =>
    if seg = [] ∨ seg = ['.'] then cleanStack rooted segs st
    else if seg = ['.', '.'] then
      match st with
      | [] => if rooted then cleanStack rooted segs [] else cleanStack rooted segs [seg]
      | top :: rest =>
        if top = ['.', '.'] then cleanStack rooted segs (seg :: top :: rest)
        else cleanStack rooted segs rest
    else cleanStack rooted segs (seg :: st)

/-- Go `path.Clean`. -/
def pathClean (p : GoString) : GoString :=
  if p = [] then ['.']
  else
    let rooted := p.head? = some '/'
    let body := List.intercalate ['/'] (cleanStack rooted (splitSlash p) []).reverse
    let out := if rooted then '/' :: body else body
    if out = [] then ['.'] else out

/-- Go `path.Join(a, b)`: the non-empty elements joined by `/`, then cleaned;
the empty string when both are empty. -/
def pathJoin (a b : GoString) : GoString :=
  if a = [] ∧ b = [] then []
  else if a = [] then pathClean b
  else if b = [] then pathClean a
  else pathClean (a ++ '/' :: b)

/-! ## Packet-line codec -/

/-- The function `packetWrite` of `server.go`. -/
def packetWrite (str : GoString) : GoString :=
  let s := FormatInt16 (str.length + 4)
  let s := if s.length % 4 ≠ 0 then stringsRepeat ['0'] (4 - s.length % 4) ++ s else s
  s ++ str

/-- The value of one lowercase hexadecimal digit. -/
def hexVal (c : Char) : Option Nat :=
  if '0' ≤ c ∧ c ≤ '9' then some (c.toNat - '0'.toNat)
  else if 'a' ≤ c ∧ c ≤ 'f' then some (c.toNat - 'a'.toNat + 10)
  else none

/-- Reads a string of lowercase hexadecimal digits as a number. -/
def parseHex (ds : GoString) : Option Nat :=
  ds.foldl (fun acc c => acc.bind fun a => (hexVal c).map fun d => 16 * a + d) (some 0)

/-- The length announced by a packet-line frame: its first four bytes read as
hexadecimal (the `decode_length` of the specification). -/
def decodeLength (frame : GoString) : Option Nat :=
  if frame.length < 4 then none else parseHex (frame.take 4)

/-- Whether a byte is one of `0`..`9`, `a`..`f`. -/
def isLowerHex (c : Char) : Bool := ('0' ≤ c ∧ c ≤ '9') ∨ ('a' ≤ c ∧ c ≤ 'f')

/-! ## Regular expressions (Go `regexp`, the constructs used by the route table)

Go's `regexp` reads the text as UTF-8 runes.  The patterns of the table tell
apart only ASCII characters (`/`, newline, the hexadecimal digits and the
letters of the literals), and both `.` and `[^/]` accept every byte above 127,
so matching byte by byte finds the same matches. -/

/-- A matcher of exactly one character. -/
inductive Atom where
  /-- A literal character. -/
  | chr (c : Char)
  /-- The pattern `.`: any character except newline. -/
  | dot
  /-- A bracket class `[...]` (or `[^...]` when `neg`), given by its ranges. -/
  | cls (neg : Bool) (ranges : List (Char × Char))
  deriving DecidableEq, Repr

/-- Whether the atom accepts the character.  A negated class accepts newline,
`.` does not (Go compiles with the Perl flags: class-NL on, dot-NL off). -/
def Atom.test : Atom → Char → Bool
  | .chr c, x => decide (x = c)
  | .dot, x => decide (x ≠ '\n')
  | .cls neg ranges, x => neg != ranges.any fun r => decide (r.1 ≤ x) && decide (x ≤ r.2)

/-- One element of a pattern, read left to right. -/
inductive Node where
  /-- An atom matched once. -/
  | one (a : Atom)
  /-- The counted repetition `a{n}`. -/
  | rep (a : Atom) (n : Nat)
  /-- The greedy repetition `a*`. -/
  | star (a : Atom)
  /-- The non-greedy repetition `a*?`. -/
  | lazy (a : Atom)
  /-- The opening bracket of capture group 1. -/
  | groupOpen
  /-- The closing bracket of capture group 1. -/
  | groupClose
  /-- The pattern `$`: end of text (no multi-line flag). -/
  | eot
  deriving DecidableEq, Repr

/-- A compiled pattern. -/
abbrev Regex := List Node

/-- The input that was left when capture group 1 opened and when it closed. -/
structure Caps where
  atOpen : GoString
  atClose : GoString
  deriving DecidableEq, Repr

/-- Consumes exactly `n` characters accepted by `a`; returns the input left. -/
def takeRep (a : Atom) : Nat → GoString → Option GoString
  | 0, s => some s
  | _ + 1, [] => none
  | n + 1, c :: t => if a.test c then takeRep a n t else none

/-- The repetition `a*` followed by the continuation `k`: longest run first. -/
def greedyLoop {R : Type} (a : Atom) (k : GoString → Option R) : GoString → Option R
  | [] => k []
  | c :: t =>
    if a.test c then
      match greedyLoop a k t with
      | some r => some r
      | none => k (c :: t)
    else k (c :: t)

/-- The repetition `a*?` followed by the continuation `k`: shortest run first. -/
def lazyLoop {R : Type} (a : Atom) (k : GoString → Option R) : GoString → Option R
  | [] => k []
  | c :: t =>
    match k (c :: t) with
    | some r => some r
    | none => if a.test c then lazyLoop a k t else none

/-- Backtracking match of a pattern at the front of the input: the first
success in the order a backtracking search tries the alternatives, which is the
match Go's `regexp` reports (leftmost-first semantics).  Returns the capture
marks and the input left after the match. -/
def matchNodes : Regex → Caps → GoString → Option (Caps × GoString)
  | [], c, s => some (c, s)
  | .one a :: re, c, s =>
    match s with
    | [] => none
    | x :: t => if a.test x then matchNodes re c t else none
  | .rep a n :: re, c, s =>
    match takeRep a n s with
    | none => none
    | some t => matchNodes re c t
  | .star a :: re, c, s => greedyLoop a (fun t => matchNodes re c t) s
  | .lazy a :: re, c, s => lazyLoop a (fun t => matchNodes re c t) s
  | .groupOpen :: re, c, s => matchNodes re { c with atOpen := s } s
  | .groupClose :: re, c, s => matchNodes re { c with atClose := s } s
  | .eot :: re, c, s => if s = [] then matchNodes re c s else none

/-- A match that starts exactly at the front of `s`: the matched text `m[0]`
and the text of group 1, `m[1]` (empty when the group took no part). -/
def matchAt (re : Regex) (s : GoString) : Option (GoString × GoString) :=
  match matchNodes re ⟨s, s⟩ s with
  | none => none
  | some (c, rest) =>
    some (s.take (s.length - rest.length),
          c.atOpen.take (c.atOpen.length - c.atClose.length))

/-- Go `re.FindStringSubmatch(s)`: the leftmost match, as the pair
`(m[0], m[1])`; `none` stands for the nil slice. -/
def FindStringSubmatch (re : Regex) : GoString → Option (GoString × GoString)
  | [] => matchAt re []
  | c :: t =>
    match matchAt re (c :: t) with
    | some m => some m
    | none => FindStringSubmatch re t

/-- The pattern text `(.*?)`. -/
def lazyGroup : Regex := [.groupOpen, .lazy .dot, .groupClose]

/-- A run of literal characters of a pattern. -/
def lit (s : String) : Regex := s.toList.map fun c => .one (.chr c)

/-- The class `[0-9a-f]`. -/
def hexClass : Atom := .cls false [('0', '9'), ('a', 'f')]

/-- The class `[^/]`. -/
def notSlash : Atom := .cls true [('/', '/')]

/-! ## Requests, responses and the outside world -/

/-- A header map or form: keys with their values. -/
abbrev Fields := List (GoString × GoString)

/-- Go `Header.Get` and `FormValue`: the value of the key, `""` when absent. -/
def Fields.get : Fields → GoString → GoString
  | [], _ => []
  | kv :: h, key => if kv.1 = key then kv.2 else Fields.get h key

/-- Go `Header.Set`: the key's value is replaced, or the key is added. -/
def Fields.set : Fields → GoString → GoString → Fields
  | [], key, value => [(key, value)]
  | kv :: h, key, value =>
    if kv.1 = key then (key, value) :: h else kv :: Fields.set h key value

/-- Go `Header.Del`: the key is removed. -/
def Fields.del : Fields → GoString → Fields
  | [], _ => []
  | kv :: h, key => if kv.1 = key then Fields.del h key else kv :: Fields.del h key

/-- The fields of `*http.Request` that the server reads. -/
structure Request where
  Method : GoString
  /-- The decoded path `r.URL.Path`. -/
  Path : GoString
  Proto : GoString
  Header : Fields
  /-- The parsed form behind `r.FormValue`. -/
  Form : Fields
  Body : GoString
  deriving DecidableEq, Repr

/-- An `http.ResponseWriter`.  `wrote` is the status line once it has been
written, together with the header map as it stood then (later changes of the
map are not sent); `body` is what has been written after it. -/
structure ResponseWriter where
  header : Fields
  wrote : Option (Nat × Fields)
  body : GoString
  deriving DecidableEq, Repr

/-- The writer the HTTP server hands to the handler for a new request. -/
def ResponseWriter.fresh : ResponseWriter := ⟨[], none, []⟩

/-- Go `w.Header().Set(key, value)`. -/
def ResponseWriter.Set (w : ResponseWriter) (key value : GoString) : ResponseWriter :=
  { w with header := w.header.set key value }

/-- Go `w.WriteHeader(code)`: only the first call has an effect. -/
def ResponseWriter.WriteHeader (w : ResponseWriter) (code : Nat) : ResponseWriter :=
  match w.wrote with
  | some _ => w
  | none => { w with wrote := some (code, w.header) }

/-- Go `w.Write(b)`: writes status 200 first when no status was written. -/
def ResponseWriter.Write (w : ResponseWriter) (b : GoString) : ResponseWriter :=
  let w := w.WriteHeader 200
  { w with body := w.body ++ b }

/-- The status code of the response the client receives (200 when the handler
returned without writing one). -/
def ResponseWriter.status (w : ResponseWriter) : Nat :=
  match w.wrote with
  | some (code, _) => code
  | none => 200

/-- The header fields of the response the client receives. -/
def ResponseWriter.sent (w : ResponseWriter) : Fields :=
  match w.wrote with
  | some (_, h) => h
  | none => w.header

/-- An `exec.Cmd` as configured before it runs.  `Env = none` is the Go nil
slice: the child inherits the environment of the server. -/
structure Cmd where
  Name : GoString
  Args : List GoString
  Dir : GoString
  Env : Option (List GoString)
  Stdin : GoString
  deriving DecidableEq, Repr

/-- The outcome of `os.Stat`. -/
inductive StatResult where
  /-- The file exists: its size and its modification time in `http.TimeFormat`. -/
  | ok (size : Nat) (modTime : GoString)
  /-- An error for which `os.IsNotExist` holds. -/
  | notExist
  /-- Any other error (permission denied, not a directory, ...). -/
  | otherError
  deriving DecidableEq, Repr

/-- The handlers of the route table. -/
inductive HandlerId where
  | serviceRpc | getInfoRefs | getTextFile | getInfoPacks
  | getLooseObject | getPackFile | getIdxFile
  deriving DecidableEq, Repr

/-- A call that leaves the server, or a call of a route handler. -/
inductive Event where
  | getwd
  | stat (name : GoString)
  | handler (h : HandlerId) (rpc dir file : GoString)
  | gzipNewReader
  | exec (cmd : Cmd)
  | serveFile (name : GoString)
  | bodyClose
  deriving DecidableEq, Repr

/-- What one call of `http.ServeFile` does to the response: the fields it
deletes from the header map, the fields it then sets, the status it writes and
the body it sends.  (The standard library sets entity fields such as
`Content-Type`, `Content-Range`, `Accept-Ranges`, `Location`; for an error
answer, Go 1.23 and later first delete `Cache-Control`, `Content-Encoding`,
`Etag`, `Last-Modified` and `Content-Length`.) -/
structure Served where
  status : Nat
  body : GoString
  deleted : List GoString
  set : Fields
  deriving DecidableEq, Repr

/-- The header map after the edits of one call of `http.ServeFile`. -/
def Served.edit (a : Served) (h : Fields) : Fields :=
  a.set.foldl (fun acc kv => acc.set kv.1 kv.2) (a.deleted.foldl Fields.del h)

/-- The outside world as the server sees it while it serves one request. -/
structure Env where
  /-- The value of `DefaultConfig.ProjectRoot`. -/
  ProjectRoot : GoString
  /-- The result of `os.Getwd()`, `none` for an error. -/
  getwd : Option GoString
  stat : GoString → StatResult
  /-- The result of `time.Now().Unix()`, an `int64`. -/
  now : Int
  /-- The result of `os.Environ()`. -/
  environ : List GoString
  /-- Running a child process: the bytes of its standard output and whether it
  ended without error. -/
  exec : Cmd → GoString × Bool
  /-- The result of `gzip.NewReader(body)`: `none` for an error, else the bytes
  that the reader delivers. -/
  gzip : GoString → Option GoString
  /-- What `http.ServeFile` does for a file name and a request, given the
  header map as the handler left it. -/
  serveFile : GoString → Request → Fields → Served

/-- The state threaded through a request: the response writer, the record of
outside calls, and whether the goroutine has panicked. -/
structure World where
  w : ResponseWriter
  events : List Event
  panicked : Bool
  deriving DecidableEq, Repr

/-- Appends an event to the record. -/
def World.log (wd : World) (e : Event) : World := { wd with events := wd.events ++ [e] }

/-- Applies a change of the response writer. -/
def World.onW (wd : World) (f : ResponseWriter → ResponseWriter) : World := { wd with w := f wd.w }

/-- The struct `HandlerReq` of `server.go`; its field `w` is the writer of the
`World`. -/
structure HandlerReq where
  r : Request
  Rpc : GoString
  Dir : GoString
  File : GoString
  deriving DecidableEq, Repr

/-- The struct `Service` of `server.go`. -/
structure Service where
  Method : GoString
  Handler : HandlerId
  Rpc : GoString
  deriving DecidableEq, Repr

/-- The route table `services` of `server.go`, in the order it is declared. -/
def services : List (Regex × Service) := [
  (lazyGroup ++ lit "/git-upload-pack" ++ [.eot], ⟨"POST".toList, .serviceRpc, "upload-pack".toList⟩),
  (lazyGroup ++ lit "/git-receive-pack" ++ [.eot], ⟨"POST".toList, .serviceRpc, "receive-pack".toList⟩),
  (lazyGroup ++ lit "/info/refs" ++ [.eot], ⟨"GET".toList, .getInfoRefs, []⟩),
  (lazyGroup ++ lit "/HEAD" ++ [.eot], ⟨"GET".toList, .getTextFile, []⟩),
  (lazyGroup ++ lit "/objects/info/alternates" ++ [.eot], ⟨"GET".toList, .getTextFile, []⟩),
  (lazyGroup ++ lit "/objects/info/http-alternates" ++ [.eot], ⟨"GET".toList, .getTextFile, []⟩),
  (lazyGroup ++ lit "/objects/info/packs" ++ [.eot], ⟨"GET".toList, .getInfoPacks, []⟩),
  (lazyGroup ++ lit "/objects/info/" ++ [.star notSlash, .eot], ⟨"GET".toList, .getTextFile, []⟩),
  (lazyGroup ++ lit "/objects/" ++ [.rep hexClass 2] ++ lit "/" ++ [.rep hexClass 38, .eot],
    ⟨"GET".toList, .getLooseObject, []⟩),
  (lazyGroup ++ lit "/objects/pack/pack-" ++ [.rep hexClass 40] ++ lit ".pack" ++ [.eot],
    ⟨"GET".toList, .getPackFile, []⟩),
  (lazyGroup ++ lit "/objects/pack/pack-" ++ [.rep hexClass 40] ++ lit ".idx" ++ [.eot],
    ⟨"GET".toList, .getIdxFile, []⟩)]

/-! ## Header policies and small responses -/

/-- The value of a Go `int64` after an addition: wrapped into `[-2^63, 2^63)`. -/
def wrapInt64 (x : Int) : Int := (x + 2 ^ 63) % 2 ^ 64 - 2 ^ 63

/-- The function `hdrNocache` of `server.go`. -/
def hdrNocache (w : ResponseWriter) : ResponseWriter :=
  let w := w.Set "Expires".toList "Fri, 01 Jan 1980 00:00:00 GMT".toList
  let w := w.Set "Pragma".toList "no-cache".toList
  w.Set "Cache-Control".toList "no-cache, max-age=0, must-revalidate".toList

/-- The function `hdrCacheForever` of `server.go`. -/
def hdrCacheForever (env : Env) (w : ResponseWriter) : ResponseWriter :=
  let now := env.now
  let expires := wrapInt64 (now + 31536000)
  let w := w.Set "Date".toList (fmtInt now)
  let w := w.Set "Expires".toList (fmtInt expires)
  w.Set "Cache-Control".toList "public, max-age=31536000".toList

/-- The function `renderNotFound` of `server.go`. -/
def renderNotFound (w : ResponseWriter) : ResponseWriter :=
  (w.WriteHeader 404).Write "Not Found".toList

/-- The function `renderNoAccess` of `server.go`. -/
def renderNoAccess (w : ResponseWriter) : ResponseWriter :=
  (w.WriteHeader 403).Write "Forbidden".toList

/-- The function `renderMethodNotAllowed` of `server.go`. -/
def renderMethodNotAllowed (w : ResponseWriter) (r : Request) : ResponseWriter :=
  if r.Proto = "HTTP/1.1".toList then (w.WriteHeader 405).Write "Method Not Allowed".toList
  else (w.WriteHeader 400).Write "Bad Request".toList

/-! ## Handlers -/

/-- The function `getServiceType` of `server.go`. -/
def getServiceType (r : Request) : GoString :=
  let service_type := r.Form.get "service".toList
  if ¬ stringsHasPrefix service_type "git-".toList then []
  else stringsReplaceFirst service_type "git-".toList []

/-- The function `gitCommand` of `server.go`: runs `git args...` in `dir` and
returns its output; an error is only logged. -/
def gitCommand (env : Env) (dir : GoString) (_version : GoString) (args : List GoString)
    (wd : World) : World × GoString :=
  let cmd : Cmd := ⟨"git".toList, args, dir, none, []⟩
  (wd.log (.exec cmd), (env.exec cmd).1)

/-- The function `sendFile` of `server.go`.  When `os.Stat` fails with an error
other than "not exist" the file info is nil and `f.Size()` panics.  The call of
`http.ServeFile` edits the header map, writes a status and sends a body, all
three as the outside world decides. -/
def sendFile (env : Env) (content_type : GoString) (hr : HandlerReq) (wd : World) : World :=
  let req_file := pathJoin hr.Dir hr.File
  let wd := wd.log (.stat req_file)
  match env.stat req_file with
  | .notExist => wd.onW renderNotFound
  | .otherError => { wd with panicked := true }
  | .ok size modTime =>
    let wd := wd.onW fun w => w.Set "Content-Type".toList content_type
    let wd := wd.onW fun w => w.Set "Content-Length".toList (fmtInt size)
    let wd := wd.onW fun w => w.Set "Last-Modified".toList modTime
    let wd := wd.log (.serveFile req_file)
    let served := env.serveFile req_file hr.r wd.w.header
    let wd := wd.onW fun w => { w with header := served.edit w.header }
    wd.onW fun w => (w.WriteHeader served.status).Write served.body

/-- The function `updateServerInfo` of `server.go`. -/
def updateServerInfo (env : Env) (dir : GoString) (wd : World) : World × GoString :=
  gitCommand env dir [] ["update-server-info".toList] wd

/-- The function `getInfoRefs` of `server.go`. -/
def getInfoRefs (env : Env) (hr : HandlerReq) (wd : World) : World :=
  let wd := wd.onW hdrNocache
  let service_name := getServiceType hr.r
  if service_name ≠ "upload-pack".toList ∧ service_name ≠ "receive-pack".toList then
    let wd := (updateServerInfo env hr.Dir wd).1
    sendFile env "text/plain; charset=utf-8".toList hr wd
  else
    let version := hr.r.Header.get "Git-Protocol".toList
    let args := [service_name, "--stateless-rpc".toList, "--advertise-refs".toList, ".".toList]
    let (wd, refs) := gitCommand env hr.Dir version args wd
    let wd := wd.onW fun w =>
      w.Set "Content-Type".toList ("application/x-git-".toList ++ service_name ++ "-advertisement".toList)
    let wd := wd.onW fun w => w.WriteHeader 200
    let wd := wd.onW fun w => w.Write (packetWrite ("# service=git-".toList ++ service_name ++ "\n".toList))
    let wd := wd.onW fun w => w.Write "0000".toList
    wd.onW fun w => w.Write refs

/-- The function `getInfoPacks` of `server.go`. -/
def getInfoPacks (env : Env) (hr : HandlerReq) (wd : World) : World :=
  sendFile env "text/plain; charset=utf-8".toList hr (wd.onW (hdrCacheForever env))

/-- The function `getLooseObject` of `server.go`. -/
def getLooseObject (env : Env) (hr : HandlerReq) (wd : World) : World :=
  sendFile env "application/x-git-loose-object".toList hr (wd.onW (hdrCacheForever env))

/-- The function `getTextFile` of `server.go`. -/
def getTextFile (env : Env) (hr : HandlerReq) (wd : World) : World :=
  sendFile env "text/plain".toList hr (wd.onW hdrNocache)

/-- The function `getIdxFile` of `server.go`. -/
def getIdxFile (env : Env) (hr : HandlerReq) (wd : World) : World :=
  sendFile env "application/x-git-packed-objects-toc".toList hr (wd.onW (hdrCacheForever env))

/-- The function `getPackFile` of `server.go`. -/
def getPackFile (env : Env) (hr : HandlerReq) (wd : World) : World :=
  sendFile env "application/x-git-packed-objects".toList hr (wd.onW (hdrCacheForever env))

/-- The function `ComposeHookEnvs` of `server.go`. -/
def ComposeHookEnvs : List GoString := ["SSH_ORIGINAL_COMMAND=1".toList]

/-- The body of `serviceRpc` of `server.go`, before the deferred close. -/
def serviceRpcBody (env : Env) (hr : HandlerReq) (wd : World) : World :=
  let r := hr.r
  let rpc := hr.Rpc
  let repoDir := hr.Dir
  if r.Header.get "Content-Type".toList ≠ "application/x-git-".toList ++ rpc ++ "-request".toList then
    wd.onW fun w => w.WriteHeader 401
  else
    let wd := wd.onW fun w =>
      w.Set "Content-Type".toList ("application/x-git-".toList ++ rpc ++ "-result".toList)
    let run (reqBody : GoString) (wd : World) : World :=
      let cmd : Cmd := {
        Name := "git".toList
        Args := [rpc, "--stateless-rpc".toList, repoDir]
        Env := if rpc = "receive-pack".toList then some (env.environ ++ ComposeHookEnvs) else none
        Dir := repoDir
        Stdin := reqBody }
      let wd := wd.log (.exec cmd)
      let res := env.exec cmd
      let wd := if res.1 = [] then wd else wd.onW fun w => w.Write res.1
      if res.2 then wd else wd.onW fun w => w.WriteHeader 500
    if r.Header.get "Content-Encoding".toList = "gzip".toList then
      let wd := wd.log .gzipNewReader
      match env.gzip r.Body with
      | none => wd.onW fun w => w.WriteHeader 500
      | some reqBody => run reqBody wd
    else run r.Body wd

/-- The function `serviceRpc` of `server.go`: the body, then the deferred
`hr.r.Body.Close()`. -/
def serviceRpc (env : Env) (hr : HandlerReq) (wd : World) : World :=
  (serviceRpcBody env hr wd).log .bodyClose

/-- Calls the handler that a `Service` holds in its field `Handler`. -/
def HandlerId.run : HandlerId → Env → HandlerReq → World → World
  | .serviceRpc => FacegitHttp.serviceRpc
  | .getInfoRefs => FacegitHttp.getInfoRefs
  | .getTextFile => FacegitHttp.getTextFile
  | .getInfoPacks => FacegitHttp.getInfoPacks
  | .getLooseObject => FacegitHttp.getLooseObject
  | .getPackFile => FacegitHttp.getPackFile
  | .getIdxFile => FacegitHttp.getIdxFile

/-! ## Dispatcher -/

/-- The function `getRepoGitDir` of `server.go`; `none` stands for a non-nil
error. -/
def getRepoGitDir (env : Env) (file_path : GoString) (wd : World) : World × Option GoString :=
  let resolve (root : GoString) (wd : World) : World × Option GoString :=
    let f := pathJoin root file_path
    let wd := wd.log (.stat f)
    if env.stat f = .notExist then (wd, none) else (wd, some f)
  if env.ProjectRoot = [] then
    let wd := wd.log .getwd
    match env.getwd with
    | none => (wd, none)
    | some cwd => resolve cwd wd
  else resolve env.ProjectRoot wd

/-- The body of the loop of `Handler` once the pattern of `service` has matched
the path with the submatches `m`. -/
def serveMatch (env : Env) (r : Request) (service : Service) (m : GoString × GoString)
    (wd : World) : World :=
  if service.Method ≠ r.Method then wd.onW fun w => renderMethodNotAllowed w r
  else
    let rpc := service.Rpc
    let file := stringsReplaceFirst r.Path (m.2 ++ "/".toList) []
    match getRepoGitDir env m.2 wd with
    | (wd, none) => wd.onW renderNotFound
    | (wd, some dir) =>
      let hr : HandlerReq := ⟨r, rpc, dir, file⟩
      service.Handler.run env hr (wd.log (.handler service.Handler rpc dir file))

/-- The loop of `Handler` over the route table, in the order `routes` in which
`range services` yields the entries; the `renderNotFound` after the loop is the
case of the empty list.  All eleven patterns compile, so the error of
`regexp.Compile` is always nil and the pattern is held in compiled form. -/
def serveRoutes (env : Env) (r : Request) : List (Regex × Service) → World → World
  | [], wd => wd.onW renderNotFound
  | (re, service) :: rest, wd =>
    match FindStringSubmatch re r.Path with
    | none => serveRoutes env r rest wd
    | some m => serveMatch env r service m wd

/-- The function `Handler` of `server.go`, applied to a writer and a request.
`order` is the order in which the map `services` is iterated for this request. -/
def Handler (env : Env) (order : List (Regex × Service)) (w : ResponseWriter) (r : Request) :
    World :=
  serveRoutes env r order ⟨w, [], false⟩


/-! ## Observations on a finished request -/

/-- Whether the pattern matches somewhere in the path (`m != nil`). -/
def routeMatches (re : Regex) (path : GoString) : Bool := (FindStringSubmatch re path).isSome

/-- The directory under which repositories are looked up: `ProjectRoot`, or
the working directory when `ProjectRoot` is empty (`none` when `os.Getwd` fails). -/
def repoRoot (env : Env) : Option GoString :=
  if env.ProjectRoot = [] then env.getwd else some env.ProjectRoot

/-- The pattern has no capture bracket. -/
def capFree : Regex → Bool
  | [] => true
  | .groupOpen :: _ => false
  | .groupClose :: _ => false
  | _ :: re => capFree re

/-- The pattern is `(.*?)/` followed by a pattern without capture brackets. -/
def isRoutePattern (re : Regex) : Bool :=
  decide (re.take 4 = [.groupOpen, .lazy .dot, .groupClose, .one (.chr '/')]) &&
    capFree (re.drop 4)

/-- The last element of the pattern is `$`. -/
def endsWithEot (re : Regex) : Bool := decide (re.getLast? = some .eot)

/-- The part of a path before its last `/` (empty when the path has no `/`). -/
def beforeLastSlash (p : GoString) : GoString :=
  ((p.reverse.dropWhile fun c => c != '/').drop 1).reverse

/-- The child processes that were run, in order. -/
def execs : List Event → List Cmd
  | [] => []
  | .exec cmd :: es => cmd :: execs es
  | _ :: es => execs es

/-- The handlers that were called, in order. -/
def handlersCalled : List Event → List HandlerId
  | [] => []
  | .handler h _ _ _ :: es => h :: handlersCalled es
  | _ :: es => handlersCalled es

/-- The handler calls, in order, each with the fields `Rpc`, `Dir` and `File`
of the `HandlerReq` it received. -/
def handlerCalls : List Event → List (HandlerId × GoString × GoString × GoString)
  | [] => []
  | .handler h rpc dir file :: es => (h, rpc, dir, file) :: handlerCalls es
  | _ :: es => handlerCalls es

/-- The four fields of the two policies. -/
def policyKeys : List GoString :=
  ["Cache-Control".toList, "Pragma".toList, "Expires".toList, "Date".toList]

/-- The file server was called for the file of the handler request and
deleted `Cache-Control` from the header map (as Go 1.23 and later do before an
error answer). -/
def servedStripped (env : Env) (hr : HandlerReq) (events : List Event) : Prop :=
  Event.serveFile (pathJoin hr.Dir hr.File) ∈ events ∧
  ∃ hdr : Fields,
    "Cache-Control".toList ∈ (env.serveFile (pathJoin hr.Dir hr.File) hr.r hdr).deleted

/-- How the header map that is sent relates, on the four policy fields, to a
header map `h`: every field is as in `h`, except that `Cache-Control` is missing
when `strip` holds. -/
def policyUpToStrip (strip : Prop) (s h : Fields) : Prop :=
  ∀ k ∈ policyKeys,
    s.get k = h.get k ∨ (k = "Cache-Control".toList ∧ s.get k = [] ∧ strip)

/-- What the standard library's `http.ServeFile` does to the four policy
fields: it sets none of them, and the only one it ever deletes is
`Cache-Control`. -/
def servesLikeGo (env : Env) : Prop :=
  ∀ (name : GoString) (r : Request) (hdr : Fields),
    (∀ kv ∈ (env.serveFile name r hdr).set, kv.1 ∉ policyKeys) ∧
    (∀ k ∈ (env.serveFile name r hdr).deleted, k ∈ policyKeys → k = "Cache-Control".toList)

/-- The non-cacheable header set is on the header map. -/
def isNocache (h : Fields) : Prop :=
  h.get "Cache-Control".toList = "no-cache, max-age=0, must-revalidate".toList ∧
  h.get "Pragma".toList = "no-cache".toList ∧
  h.get "Expires".toList = "Fri, 01 Jan 1980 00:00:00 GMT".toList

/-- The cache-forever header set for the clock value `now` is on the header map. -/
def isCacheForever (now : Int) (h : Fields) : Prop :=
  h.get "Cache-Control".toList = "public, max-age=31536000".toList ∧
  h.get "Date".toList = fmtInt now ∧
  h.get "Expires".toList = fmtInt (now + 31536000)

/-- The non-cacheable header set is on the header map, except that
`Cache-Control` may be missing. -/
def isNocacheStripped (h : Fields) : Prop :=
  (h.get "Cache-Control".toList = "no-cache, max-age=0, must-revalidate".toList ∨
    h.get "Cache-Control".toList = []) ∧
  h.get "Pragma".toList = "no-cache".toList ∧
  h.get "Expires".toList = "Fri, 01 Jan 1980 00:00:00 GMT".toList

/-- The cache-forever header set for the clock value `now` is on the header
map, except that `Cache-Control` may be missing. -/
def isCacheForeverStripped (now : Int) (h : Fields) : Prop :=
  (h.get "Cache-Control".toList = "public, max-age=31536000".toList ∨
    h.get "Cache-Control".toList = []) ∧
  h.get "Date".toList = fmtInt now ∧
  h.get "Expires".toList = fmtInt (now + 31536000)

/-- The header map carries the `Cache-Control` of one policy with an `Expires`
of the other. -/
def isMixedPolicy (h : Fields) : Prop :=
  (h.get "Cache-Control".toList = "no-cache, max-age=0, must-revalidate".toList ∧
    ∃ t : Int, h.get "Expires".toList = fmtInt t) ∨
  (h.get "Cache-Control".toList = "public, max-age=31536000".toList ∧
    h.get "Expires".toList = "Fri, 01 Jan 1980 00:00:00 GMT".toList)

/-! ## How a pattern of the table ends -/

/-- The characters `l` when the pattern is exactly the literal `l` followed by `$`. -/
def litRun : Regex → Option GoString
  | [.eot] => some []
  | .one (.chr c) :: re => (litRun re).map fun l => c :: l
  | _ => none

/-- The literal text right before the final `$` of a pattern: every text that
the pattern matches ends with it (empty when the pattern ends otherwise). -/
def tailLit : Regex → GoString
  | [] => []
  | n :: re =>
    match litRun (n :: re) with
    | some l => l
    | none => tailLit re

/-- The atom `a` when the pattern is exactly `a{n}$` with `n` positive. -/
def isFinalRep : Regex → Option Atom
  | [.rep a (_ + 1), .eot] => some a
  | _ => none

/-- The atom of a counted repetition right before the final `$` of a pattern:
the last character of every text that the pattern matches is accepted by it. -/
def endClass : Regex → Option Atom
  | [] => none
  | n :: re =>
    match isFinalRep (n :: re) with
    | some a => some a
    | none => endClass re

/-- The class that ends `a`, if any, accepts the last character of the literal
that ends `b`, if any. -/
def lastAccepted (a b : Regex) : Bool :=
  match endClass a, (tailLit b).getLast? with
  | some cl, some z => cl.test z
  | _, _ => true

/-- What the ends of two patterns allow: one literal tail is an end piece of
the other, and each final class accepts the last character of the other's
literal tail.  Two patterns that match the same text are compatible. -/
def endsCompatible (a b : Regex) : Bool :=
  (decide (tailLit a <:+ tailLit b) || decide (tailLit b <:+ tailLit a)) &&
    lastAccepted a b && lastAccepted b a

/-- The generic route `(.*?)/objects/info/[^/]*$` of the table. -/
def genericInfoRoute : Regex × Service :=
  (lazyGroup ++ lit "/objects/info/" ++ [.star notSlash, .eot], ⟨"GET".toList, .getTextFile, []⟩)

/-- The suffixes of the HTTP surface table: the seven fixed ones,
`/objects/info/<name>` with a name free of `/`, `/objects/XX/<38 hex>`,
`/objects/pack/pack-<40 hex>.pack` and `/objects/pack/pack-<40 hex>.idx`
(hexadecimal digits in lower case). -/
def surfaceSuffix (suf : GoString) : Prop :=
  suf ∈ ["/git-upload-pack".toList, "/git-receive-pack".toList, "/info/refs".toList,
    "/HEAD".toList, "/objects/info/alternates".toList, "/objects/info/http-alternates".toList,
    "/objects/info/packs".toList] ∨
  (∃ name : GoString, (∀ c ∈ name, c ≠ '/') ∧ suf = "/objects/info/".toList ++ name) ∨
  (∃ x y : GoString, x.length = 2 ∧ y.length = 38 ∧ (∀ c ∈ x, isLowerHex c = true) ∧
    (∀ c ∈ y, isLowerHex c = true) ∧ suf = "/objects/".toList ++ x ++ "/".toList ++ y) ∨
  (∃ x : GoString, x.length = 40 ∧ (∀ c ∈ x, isLowerHex c = true) ∧
    suf = "/objects/pack/pack-".toList ++ x ++ ".pack".toList) ∨
  (∃ x : GoString, x.length = 40 ∧ (∀ c ∈ x, isLowerHex c = true) ∧
    suf = "/objects/pack/pack-".toList ++ x ++ ".idx".toList)

/-! ## A sample deployment, used to run the definitions on concrete requests -/

/-- A server rooted at `/srv`.  It holds the repository `/srv/repo.git` with
the regular files `HEAD` and `objects/info/packs` (4 bytes), and the
directories `/srv/a/b` and `/srv/b`.  A path below the regular file `HEAD`
makes `os.Stat` fail with "not a directory"; every other path does not exist.
Every child process prints `REFS` and succeeds.  The file server answers a
request for the byte range 100-200 with 416, after removing the fields that
Go 1.23 removes from an error answer, and every other request with the four
bytes of the file. -/
def demoEnv : Env where
  ProjectRoot := "/srv".toList
  getwd := some "/home/git".toList
  stat := fun p =>
    if p = "/srv/repo.git/objects/info/packs".toList then
      .ok 4 "Mon, 02 Jan 2006 15:04:05 GMT".toList
    else if p = "/srv/repo.git/HEAD".toList then
      .ok 21 "Mon, 02 Jan 2006 15:04:05 GMT".toList
    else if p ∈ ["/srv/repo.git".toList, "/srv/repo.git/objects/info".toList,
        "/srv/a/b".toList, "/srv/b".toList] then
      .ok 4096 "Mon, 02 Jan 2006 15:04:05 GMT".toList
    else if "/srv/repo.git/HEAD/".toList.isPrefixOf p then .otherError
    else .notExist
  now := 1700000000
  environ := ["PATH=/usr/bin".toList]
  exec := fun _ => ("REFS".toList, true)
  gzip := fun b => some b
  serveFile := fun _ r _ =>
    if r.Header.get "Range".toList = "bytes=100-200".toList then
      { status := 416
        body := "invalid range: failed to overlap\n".toList
        deleted := ["Cache-Control".toList, "Content-Encoding".toList, "Etag".toList,
          "Last-Modified".toList, "Content-Length".toList]
        set := [("Content-Range".toList, "bytes */4".toList),
          ("Content-Type".toList, "text/plain; charset=utf-8".toList),
          ("X-Content-Type-Options".toList, "nosniff".toList)] }
    else
      { status := 200
        body := "data".toList
        deleted := []
        set := [("Accept-Ranges".toList, "bytes".toList)] }

/-- A request over HTTP/1.1 with the given method, path, header and form. -/
def demoRequest (method path : String) (header form : Fields) : Request :=
  ⟨method.toList, path.toList, "HTTP/1.1".toList, header, form, []⟩

/-- The handler request of `GET /repo.git/info/refs?service=git-upload-pack`. -/
def demoInfoRefs : HandlerReq :=
  ⟨demoRequest "GET" "/repo.git/info/refs" [] [("service".toList, "git-upload-pack".toList)],
    [], "/srv/repo.git".toList, "info/refs".toList⟩

/-- The handler request of `POST /repo.git/git-upload-pack` with the content
type of the other service. -/
def demoRpcMismatch : HandlerReq :=
  ⟨demoRequest "POST" "/repo.git/git-upload-pack"
      [("Content-Type".toList, "application/x-git-receive-pack-request".toList)] [],
    "upload-pack".toList, "/srv/repo.git".toList, "git-upload-pack".toList⟩

/-- The handler request of `POST /repo.git/git-upload-pack` with the content
type of the service and the body `0000`. -/
def demoRpc : HandlerReq :=
  ⟨{ demoRequest "POST" "/repo.git/git-upload-pack"
        [("Content-Type".toList, "application/x-git-upload-pack-request".toList)] [] with
      Body := "0000".toList },
    "upload-pack".toList, "/srv/repo.git".toList, "git-upload-pack".toList⟩

/-- The request `PUT /repo.git/info/refs`. -/
def demoPutInfoRefs : Request := demoRequest "PUT" "/repo.git/info/refs" [] []

/-- The request `POST /repo.git/objects/info/git-upload-pack` with the content
type of upload-pack: its path ends in `/git-upload-pack` and also has the form
`/objects/info/<name>`. -/
def demoOverlapPost : Request :=
  demoRequest "POST" "/repo.git/objects/info/git-upload-pack"
    [("Content-Type".toList, "application/x-git-upload-pack-request".toList)] []

/-- The request `GET /nope/objects/info/git-upload-pack` for a repository that
does not exist. -/
def demoOverlapGet : Request := demoRequest "GET" "/nope/objects/info/git-upload-pack" [] []

/-- The request `GET /nope.git/HEAD` for a repository that does not exist. -/
def demoMissingRepo : Request := demoRequest "GET" "/nope.git/HEAD" [] []

/-- The request `GET /repo.git/objects/info/packs`. -/
def demoInfoPacks : Request := demoRequest "GET" "/repo.git/objects/info/packs" [] []

/-- The path of the request `GET /a%0Ab/HEAD`, as `r.URL.Path` holds it: the
escape `%0A` is decoded to a newline. -/
def demoNewlinePath : GoString := "/a\nb/HEAD".toList

/-- The handler request of `GET /repo.git/objects/info/packs` with the header
`Range: bytes=100-200`, which the 4-byte file cannot satisfy. -/
def demoRangeRequest : HandlerReq :=
  ⟨demoRequest "GET" "/repo.git/objects/info/packs"
      [("Range".toList, "bytes=100-200".toList)] [],
    [], "/srv/repo.git".toList, "objects/info/packs".toList⟩

/-- The request `GET /repo.git/HEAD/x/info/refs?service=git-upload-pack`: the
segment `/repo.git/HEAD/x` lies below the regular file `HEAD`. -/
def demoBelowFile : Request :=
  demoRequest "GET" "/repo.git/HEAD/x/info/refs" []
    [("service".toList, "git-upload-pack".toList)]

/-- The request `GET /repo.git/HEAD`. -/
def demoHead : Request := demoRequest "GET" "/repo.git/HEAD" [] []

/-- The request `GET /a/b/objects/info/packs`. -/
def demoNestedPacks : Request := demoRequest "GET" "/a/b/objects/info/packs" [] []

/-- The request `GET /a%0Ab/HEAD`; its decoded path is `demoNewlinePath`. -/
def demoNewline : Request := ⟨"GET".toList, demoNewlinePath, "HTTP/1.1".toList, [], [], []⟩

/-- The request `GET /repo.git/objects/info/a%0Ab`: the newline of the decoded
path comes after its last `/`. -/
def demoNewlineName : Request :=
  ⟨"GET".toList, "/repo.git/objects/info/a\nb".toList, "HTTP/1.1".toList, [], [], []⟩

/-! ## Theorems: packet-line codec -/

theorem toDigitsCore_small (f n : Nat) (ds : List Char) (hn : n < 16) (hf : n < f) :
    Nat.toDigitsCore 16 f n ds = Nat.digitChar n :: ds := by
  obtain ⟨g, rfl⟩ : ∃ g, f = g + 1 := ⟨f - 1, by omega⟩
  have h0 : n / 16 = 0 := by omega
  have h1 : n % 16 = n := by omega
  simp [Nat.toDigitsCore, h0, h1]

theorem toDigitsCore_big (f n : Nat) (ds : List Char) (hn : 16 ≤ n) (hf : n < f) :
    Nat.toDigitsCore 16 f n ds
      = Nat.toDigitsCore 16 (f - 1) (n / 16) (Nat.digitChar (n % 16) :: ds) := by
  obtain ⟨g, rfl⟩ : ∃ g, f = g + 1 := ⟨f - 1, by omega⟩
  have h0 : n / 16 ≠ 0 := by omega
  simp [Nat.toDigitsCore, h0]

theorem digitChar_lowerHex (d : Nat) (h : d < 16) :
    isLowerHex (Nat.digitChar d) = true ∧ hexVal (Nat.digitChar d) = some d := by
  interval_cases d <;> decide

theorem packetWrite_digits (str : GoString) (h : str.length + 4 ≤ 65535) :
    packetWrite str
      = Nat.digitChar ((str.length + 4) / 4096) :: Nat.digitChar ((str.length + 4) / 256 % 16)
          :: Nat.digitChar ((str.length + 4) / 16 % 16) :: Nat.digitChar ((str.length + 4) % 16)
          :: str := by
  have z : Nat.digitChar 0 = '0' := rfl
  unfold packetWrite FormatInt16 Nat.toDigits
  generalize str.length + 4 = n at h ⊢
  by_cases h1 : n < 16
  · rw [toDigitsCore_small _ _ _ h1 (by omega)]
    have a : n / 4096 = 0 := by omega
    have b : n / 256 % 16 = 0 := by omega
    have c : n / 16 % 16 = 0 := by omega
    have d : n % 16 = n := by omega
    simp [stringsRepeat, a, b, c, d, z]
  · rw [toDigitsCore_big _ _ _ (by omega) (by omega)]
    by_cases h2 : n < 256
    · rw [toDigitsCore_small _ _ _ (by omega) (by omega)]
      have a : n / 4096 = 0 := by omega
      have b : n / 256 % 16 = 0 := by omega
      have c : n / 16 % 16 = n / 16 := by omega
      simp [stringsRepeat, a, b, c, z]
    · rw [toDigitsCore_big _ _ _ (by omega) (by omega)]
      by_cases h3 : n < 4096
      · rw [toDigitsCore_small _ _ _ (by omega) (by omega)]
        have a : n / 4096 = 0 := by omega
        have b : n / 256 % 16 = n / 16 / 16 := by omega
        have c : n / 16 % 16 = n / 16 % 16 := rfl
        simp [stringsRepeat, a, b, z]
      · rw [toDigitsCore_big _ _ _ (by omega) (by omega)]
        rw [toDigitsCore_small _ _ _ (by omega) (by omega)]
        have a : n / 4096 = n / 16 / 16 / 16 := by omega
        have b : n / 256 % 16 = n / 16 / 16 % 16 := by omega
        simp [stringsRepeat, a, b]

/-- C1: for a payload with `len(payload) + 4 ≤ 0xffff`, `packetWrite` returns four lowercase
hexadecimal digits followed by the payload unchanged; the four digits read as hexadecimal are
`len(payload) + 4`, which is also what `decodeLength` reads from the frame and the total length
of the frame. -/
theorem packetWrite_frame (payload : GoString) (h : payload.length + 4 ≤ 65535) :
    ∃ d3 d2 d1 d0 : Char,
      packetWrite payload = d3 :: d2 :: d1 :: d0 :: payload ∧
      isLowerHex d3 = true ∧ isLowerHex d2 = true ∧ isLowerHex d1 = true ∧ isLowerHex d0 = true ∧
      parseHex [d3, d2, d1, d0] = some (payload.length + 4) ∧
      decodeLength (packetWrite payload) = some (payload.length + 4) ∧
      (packetWrite payload).length = payload.length + 4 := by
  have e := packetWrite_digits payload h
  generalize hn : payload.length + 4 = n at h e ⊢
  have h3 := digitChar_lowerHex (n / 4096) (by omega)
  have h2 := digitChar_lowerHex (n / 256 % 16) (by omega)
  have h1 := digitChar_lowerHex (n / 16 % 16) (by omega)
  have h0 := digitChar_lowerHex (n % 16) (by omega)
  have hp : parseHex [Nat.digitChar (n / 4096), Nat.digitChar (n / 256 % 16),
      Nat.digitChar (n / 16 % 16), Nat.digitChar (n % 16)] = some n := by
    simp only [parseHex, List.foldl, h3.2, h2.2, h1.2, h0.2, Option.bind, Option.map]
    congr 1
    omega
  refine ⟨_, _, _, _, e, h3.1, h2.1, h1.1, h0.1, hp, ?_, ?_⟩
  · rw [e]
    simp only [decodeLength, List.length_cons, List.take_succ_cons, List.take_zero]
    rw [if_neg (by omega)]
    exact hp
  · rw [e]; simp only [List.length_cons]; omega

theorem packetWrite_frame_witness :
    ("# service=git-upload-pack\n".toList).length + 4 ≤ 65535 ∧
    ∃ d3 d2 d1 d0 : Char,
      packetWrite "# service=git-upload-pack\n".toList
        = d3 :: d2 :: d1 :: d0 :: "# service=git-upload-pack\n".toList ∧
      isLowerHex d3 = true ∧ isLowerHex d2 = true ∧ isLowerHex d1 = true ∧ isLowerHex d0 = true ∧
      parseHex [d3, d2, d1, d0] = some (("# service=git-upload-pack\n".toList).length + 4) ∧
      decodeLength (packetWrite "# service=git-upload-pack\n".toList)
        = some (("# service=git-upload-pack\n".toList).length + 4) ∧
      (packetWrite "# service=git-upload-pack\n".toList).length
        = ("# service=git-upload-pack\n".toList).length + 4 :=
  ⟨by decide, packetWrite_frame _ (by decide)⟩

/-! ## Theorems: strings and header maps -/

theorem isPrefixOf_append_self (old rest : GoString) : old.isPrefixOf (old ++ rest) = true := by
  induction old with
  | nil => simp [List.isPrefixOf]
  | cons a t ih => simp [List.isPrefixOf, ih]

theorem stringsReplaceFirst_front (old rest new : GoString) :
    stringsReplaceFirst (old ++ rest) old new = new ++ rest := by
  cases h : old ++ rest with
  | nil =>
    have h1 : old = [] := (List.append_eq_nil.mp h).1
    have h2 : rest = [] := (List.append_eq_nil.mp h).2
    simp [stringsReplaceFirst, h1, h2]
  | cons c t =>
    have hp := isPrefixOf_append_self old rest
    rw [h] at hp
    rw [stringsReplaceFirst, if_pos hp, ← h, List.drop_left]

theorem Fields.get_set_self (h : Fields) (k v : GoString) : (h.set k v).get k = v := by
  induction h with
  | nil => simp [Fields.set, Fields.get]
  | cons kv t ih =>
    by_cases e : kv.1 = k
    · simp [Fields.set, Fields.get, e]
    · simp [Fields.set, Fields.get, e, ih]

theorem Fields.get_set_other (h : Fields) (k v k2 : GoString) (hne : k ≠ k2) :
    (h.set k v).get k2 = h.get k2 := by
  induction h with
  | nil => simp [Fields.set, Fields.get, hne]
  | cons kv t ih =>
    by_cases e : kv.1 = k
    · have e2 : kv.1 ≠ k2 := fun x => hne (e ▸ x)
      simp [Fields.set, Fields.get, e, e2, hne]
    · by_cases e3 : kv.1 = k2
      · rw [Fields.set, if_neg e, Fields.get, if_pos e3, Fields.get, if_pos e3]
      · rw [Fields.set, if_neg e, Fields.get, if_neg e3, Fields.get, if_neg e3, ih]

theorem getServiceType_git (r : Request) (svc : GoString)
    (h : r.Form.get "service".toList = "git-".toList ++ svc) : getServiceType r = svc := by
  unfold getServiceType stringsHasPrefix
  simp only [h, isPrefixOf_append_self, stringsReplaceFirst_front]
  simp

/-! ## Theorems: ref advertisement -/

/-- C2: for an info/refs request whose `service` parameter is `git-upload-pack` or
`git-receive-pack`, and whatever bytes `refs` the advertise-refs child process returns,
`getInfoRefs` on a new response writer answers 200 with
`Content-Type: application/x-git-<service>-advertisement` and a body that is
`packetWrite("# service=git-<service>\n")`, then `0000`, then `refs`; the body starts with
`001e# service=git-upload-pack\n0000` or `001f# service=git-receive-pack\n0000`. -/
theorem getInfoRefs_smart (env : Env) (hr : HandlerReq) (svc refs : GoString) (ok : Bool)
    (evs : List Event)
    (hsvc : svc = "upload-pack".toList ∨ svc = "receive-pack".toList)
    (hform : hr.r.Form.get "service".toList = "git-".toList ++ svc)
    (hrefs : env.exec ⟨"git".toList,
        [svc, "--stateless-rpc".toList, "--advertise-refs".toList, ".".toList],
        hr.Dir, none, []⟩ = (refs, ok)) :
    (getInfoRefs env hr ⟨ResponseWriter.fresh, evs, false⟩).w.status = 200 ∧
    (getInfoRefs env hr ⟨ResponseWriter.fresh, evs, false⟩).w.sent.get "Content-Type".toList
      = "application/x-git-".toList ++ svc ++ "-advertisement".toList ∧
    (getInfoRefs env hr ⟨ResponseWriter.fresh, evs, false⟩).w.body
      = packetWrite ("# service=git-".toList ++ svc ++ "\n".toList) ++ "0000".toList ++ refs ∧
    (svc = "upload-pack".toList →
      (getInfoRefs env hr ⟨ResponseWriter.fresh, evs, false⟩).w.body
        = "001e# service=git-upload-pack\n0000".toList ++ refs) ∧
    (svc = "receive-pack".toList →
      (getInfoRefs env hr ⟨ResponseWriter.fresh, evs, false⟩).w.body
        = "001f# service=git-receive-pack\n0000".toList ++ refs) := by
  have hs := getServiceType_git hr.r svc hform
  have hcond : ¬ (svc ≠ "upload-pack".toList ∧ svc ≠ "receive-pack".toList) := by
    rcases hsvc with h | h <;> simp [h]
  have hbody : (getInfoRefs env hr ⟨ResponseWriter.fresh, evs, false⟩).w.body
      = packetWrite ("# service=git-".toList ++ svc ++ "\n".toList) ++ "0000".toList ++ refs := by
    simp only [getInfoRefs, hs, if_neg hcond, gitCommand, hrefs, World.onW, World.log,
      ResponseWriter.Write, ResponseWriter.WriteHeader, ResponseWriter.Set, hdrNocache,
      ResponseWriter.fresh]
    simp
  refine ⟨?_, ?_, hbody, ?_, ?_⟩
  · simp only [getInfoRefs, hs, if_neg hcond, gitCommand, hrefs, World.onW, World.log,
      ResponseWriter.Write, ResponseWriter.WriteHeader, ResponseWriter.Set, hdrNocache,
      ResponseWriter.fresh, ResponseWriter.status]
  · simp only [getInfoRefs, hs, if_neg hcond, gitCommand, hrefs, World.onW, World.log,
      ResponseWriter.Write, ResponseWriter.WriteHeader, ResponseWriter.Set, hdrNocache,
      ResponseWriter.fresh, ResponseWriter.sent, Fields.get_set_self]
  · intro h
    rw [hbody, h]
    have : packetWrite ("# service=git-".toList ++ "upload-pack".toList ++ "\n".toList)
        = "001e# service=git-upload-pack\n".toList := by decide
    rw [this]; rfl
  · intro h
    rw [hbody, h]
    have : packetWrite ("# service=git-".toList ++ "receive-pack".toList ++ "\n".toList)
        = "001f# service=git-receive-pack\n".toList := by decide
    rw [this]; rfl

theorem getInfoRefs_smart_witness :
    (getInfoRefs demoEnv demoInfoRefs ⟨ResponseWriter.fresh, [], false⟩).w.status = 200 ∧
    (getInfoRefs demoEnv demoInfoRefs ⟨ResponseWriter.fresh, [], false⟩).w.sent.get
        "Content-Type".toList
      = "application/x-git-".toList ++ "upload-pack".toList ++ "-advertisement".toList ∧
    (getInfoRefs demoEnv demoInfoRefs ⟨ResponseWriter.fresh, [], false⟩).w.body
      = packetWrite ("# service=git-".toList ++ "upload-pack".toList ++ "\n".toList)
          ++ "0000".toList ++ "REFS".toList ∧
    ("upload-pack".toList = "upload-pack".toList →
      (getInfoRefs demoEnv demoInfoRefs ⟨ResponseWriter.fresh, [], false⟩).w.body
        = "001e# service=git-upload-pack\n0000".toList ++ "REFS".toList) ∧
    ("upload-pack".toList = "receive-pack".toList →
      (getInfoRefs demoEnv demoInfoRefs ⟨ResponseWriter.fresh, [], false⟩).w.body
        = "001f# service=git-receive-pack\n0000".toList ++ "REFS".toList) :=
  getInfoRefs_smart demoEnv demoInfoRefs "upload-pack".toList "REFS".toList true []
    (Or.inl rfl) (by decide) (by decide)

/-! ## Theorems: RPC service -/

theorem execs_append (a b : List Event) : execs (a ++ b) = execs a ++ execs b := by
  induction a with
  | nil => rfl
  | cons ev t ih => cases ev <;> simp [execs, ih]

theorem handlersCalled_append (a b : List Event) :
    handlersCalled (a ++ b) = handlersCalled a ++ handlersCalled b := by
  induction a with
  | nil => rfl
  | cons ev t ih => cases ev <;> simp [handlersCalled, ih]

/-- C5: when the request's `Content-Type` is not `application/x-git-<service>-request`,
`serviceRpc` on a new response writer answers 401, writes no body, leaves the response header
map empty (no `Content-Type`), runs no child process, and only closes the request body. -/
theorem serviceRpc_content_type_mismatch (env : Env) (hr : HandlerReq) (evs : List Event)
    (hct : hr.r.Header.get "Content-Type".toList
      ≠ "application/x-git-".toList ++ hr.Rpc ++ "-request".toList) :
    serviceRpc env hr ⟨ResponseWriter.fresh, evs, false⟩
      = ⟨⟨[], some (401, []), []⟩, evs ++ [.bodyClose], false⟩ ∧
    (serviceRpc env hr ⟨ResponseWriter.fresh, evs, false⟩).w.status = 401 ∧
    (serviceRpc env hr ⟨ResponseWriter.fresh, evs, false⟩).w.body = [] ∧
    (serviceRpc env hr ⟨ResponseWriter.fresh, evs, false⟩).w.sent = [] ∧
    execs (serviceRpc env hr ⟨ResponseWriter.fresh, evs, false⟩).events = execs evs := by
  have e : serviceRpc env hr ⟨ResponseWriter.fresh, evs, false⟩
      = ⟨⟨[], some (401, []), []⟩, evs ++ [.bodyClose], false⟩ := by
    simp only [serviceRpc, serviceRpcBody, if_pos hct, World.onW, World.log,
      ResponseWriter.WriteHeader, ResponseWriter.fresh]
  refine ⟨e, ?_, ?_, ?_, ?_⟩
  · rw [e]; rfl
  · rw [e]
  · rw [e]; rfl
  · rw [e]
    show execs (evs ++ [Event.bodyClose]) = execs evs
    rw [execs_append]; simp [execs]

theorem serviceRpc_content_type_mismatch_witness :
    serviceRpc demoEnv demoRpcMismatch ⟨ResponseWriter.fresh, [], false⟩
      = ⟨⟨[], some (401, []), []⟩, [] ++ [.bodyClose], false⟩ ∧
    (serviceRpc demoEnv demoRpcMismatch ⟨ResponseWriter.fresh, [], false⟩).w.status = 401 ∧
    (serviceRpc demoEnv demoRpcMismatch ⟨ResponseWriter.fresh, [], false⟩).w.body = [] ∧
    (serviceRpc demoEnv demoRpcMismatch ⟨ResponseWriter.fresh, [], false⟩).w.sent = [] ∧
    execs (serviceRpc demoEnv demoRpcMismatch ⟨ResponseWriter.fresh, [], false⟩).events
      = execs [] :=
  serviceRpc_content_type_mismatch demoEnv demoRpcMismatch [] (by decide)

/-- C7, as stated, fails: for `POST /repo.git/git-upload-pack` with the right content type and
the repository directory `/srv/repo.git`, the child process that `serviceRpc` runs has the
argument list `[upload-pack, --stateless-rpc, /srv/repo.git]`, whose last argument is the
repository directory and not `.`. -/
theorem serviceRpc_args_not_dot :
    execs (serviceRpc demoEnv demoRpc ⟨ResponseWriter.fresh, [], false⟩).events
      = [⟨"git".toList,
          ["upload-pack".toList, "--stateless-rpc".toList, "/srv/repo.git".toList],
          "/srv/repo.git".toList, none, "0000".toList⟩] ∧
    ¬ ∃ cmd ∈ execs (serviceRpc demoEnv demoRpc ⟨ResponseWriter.fresh, [], false⟩).events,
        cmd.Args = ["upload-pack".toList, "--stateless-rpc".toList, ".".toList] := by
  decide

/-- C7, amended: when the request's `Content-Type` is `application/x-git-<service>-request`,
`serviceRpc` runs exactly one child process unless the request is gzip-encoded and the gzip
reader cannot be built (then it runs none); the child is `git` with the argument list
`[<service>, --stateless-rpc, <repository directory>]`, its working directory is the
repository directory, its standard input is the (decompressed) request body, and its
environment is the server's plus `ComposeHookEnvs` for `receive-pack` and inherited
otherwise. -/
theorem serviceRpc_command (env : Env) (hr : HandlerReq) (w : ResponseWriter)
    (hct : hr.r.Header.get "Content-Type".toList
      = "application/x-git-".toList ++ hr.Rpc ++ "-request".toList) :
    execs (serviceRpc env hr ⟨w, [], false⟩).events
      = if hr.r.Header.get "Content-Encoding".toList = "gzip".toList then
          match env.gzip hr.r.Body with
          | none => []
          | some body =>
            [⟨"git".toList, [hr.Rpc, "--stateless-rpc".toList, hr.Dir], hr.Dir,
              if hr.Rpc = "receive-pack".toList then some (env.environ ++ ComposeHookEnvs)
              else none, body⟩]
        else
          [⟨"git".toList, [hr.Rpc, "--stateless-rpc".toList, hr.Dir], hr.Dir,
            if hr.Rpc = "receive-pack".toList then some (env.environ ++ ComposeHookEnvs)
            else none, hr.r.Body⟩] := by
  have hnot : ¬ (hr.r.Header.get "Content-Type".toList
      ≠ "application/x-git-".toList ++ hr.Rpc ++ "-request".toList) := fun h => h hct
  simp only [serviceRpc, serviceRpcBody, if_neg hnot]
  by_cases hz : hr.r.Header.get "Content-Encoding".toList = "gzip".toList
  · simp only [if_pos hz]
    cases hg : env.gzip hr.r.Body with
    | none => simp [World.onW, World.log, execs]
    | some body =>
      simp only []
      split_ifs <;> simp [World.onW, World.log, execs]
  · simp only [if_neg hz]
    split_ifs <;> simp [World.onW, World.log, execs]

theorem serviceRpc_command_witness :
    execs (serviceRpc demoEnv demoRpc ⟨ResponseWriter.fresh, [], false⟩).events
      = if demoRpc.r.Header.get "Content-Encoding".toList = "gzip".toList then
          match demoEnv.gzip demoRpc.r.Body with
          | none => []
          | some body =>
            [⟨"git".toList, [demoRpc.Rpc, "--stateless-rpc".toList, demoRpc.Dir], demoRpc.Dir,
              if demoRpc.Rpc = "receive-pack".toList then
                some (demoEnv.environ ++ ComposeHookEnvs)
              else none, body⟩]
        else
          [⟨"git".toList, [demoRpc.Rpc, "--stateless-rpc".toList, demoRpc.Dir], demoRpc.Dir,
            if demoRpc.Rpc = "receive-pack".toList then
              some (demoEnv.environ ++ ComposeHookEnvs)
            else none, demoRpc.r.Body⟩] :=
  serviceRpc_command demoEnv demoRpc ResponseWriter.fresh (by decide)

/-! ## Theorems: header policies -/

theorem toDigitsCore_digits (f n : Nat) (ds : List Char)
    (hds : ∀ c ∈ ds, c.isDigit = true) : ∀ c ∈ Nat.toDigitsCore 10 f n ds, c.isDigit = true := by
  induction f generalizing n ds with
  | zero => simpa [Nat.toDigitsCore] using hds
  | succ f ih =>
    have hd : (Nat.digitChar (n % 10)).isDigit = true := by
      have : n % 10 < 10 := Nat.mod_lt _ (by decide)
      interval_cases n % 10 <;> decide
    have hcons : ∀ c ∈ Nat.digitChar (n % 10) :: ds, c.isDigit = true := by
      intro c hc
      rcases List.mem_cons.mp hc with h | h
      · rw [h]; exact hd
      · exact hds c h
    simp only [Nat.toDigitsCore]
    split_ifs
    · exact hcons
    · exact ih _ _ hcons

theorem fmtInt_ne_fixed_date (t : Int) :
    fmtInt t ≠ "Fri, 01 Jan 1980 00:00:00 GMT".toList := by
  intro h
  cases t with
  | ofNat n =>
    have hall := toDigitsCore_digits (n + 1) n [] (by simp)
    have hF : 'F' ∈ Nat.toDigitsCore 10 (n + 1) n [] := by
      have : Nat.toDigitsCore 10 (n + 1) n [] = "Fri, 01 Jan 1980 00:00:00 GMT".toList := h
      rw [this]; decide
    exact absurd (hall _ hF) (by decide)
  | negSucc n =>
    have h0 := congrArg List.head? h
    simp only [fmtInt, List.head?_cons] at h0
    exact absurd h0 (by decide)

theorem wrapInt64_of_range (x : Int) (h1 : -2 ^ 63 ≤ x) (h2 : x < 2 ^ 63) : wrapInt64 x = x := by
  unfold wrapInt64
  omega

theorem hdrNocache_isNocache (w : ResponseWriter) : isNocache (hdrNocache w).header := by
  refine ⟨?_, ?_, ?_⟩
  · simp only [hdrNocache, ResponseWriter.Set, Fields.get_set_self]
  · simp only [hdrNocache, ResponseWriter.Set]
    rw [Fields.get_set_other _ _ _ _ (by decide), Fields.get_set_self]
  · simp only [hdrNocache, ResponseWriter.Set]
    rw [Fields.get_set_other _ _ _ _ (by decide), Fields.get_set_other _ _ _ _ (by decide),
      Fields.get_set_self]

theorem hdrCacheForever_isCacheForever (env : Env) (w : ResponseWriter)
    (h1 : -2 ^ 63 ≤ env.now) (h2 : env.now + 31536000 < 2 ^ 63) :
    isCacheForever env.now (hdrCacheForever env w).header := by
  have hw : wrapInt64 (env.now + 31536000) = env.now + 31536000 :=
    wrapInt64_of_range _ (by omega) h2
  refine ⟨?_, ?_, ?_⟩
  · simp only [hdrCacheForever, ResponseWriter.Set, Fields.get_set_self]
  · simp only [hdrCacheForever, ResponseWriter.Set]
    rw [Fields.get_set_other _ _ _ _ (by decide), Fields.get_set_other _ _ _ _ (by decide),
      Fields.get_set_self]
  · simp only [hdrCacheForever, ResponseWriter.Set, hw]
    rw [Fields.get_set_other _ _ _ _ (by decide), Fields.get_set_self]

theorem Fields.get_del_self (h : Fields) (k : GoString) : (h.del k).get k = [] := by
  induction h with
  | nil => rfl
  | cons kv t ih =>
    by_cases e : kv.1 = k
    · simp only [Fields.del, if_pos e, ih]
    · rw [Fields.del, if_neg e, Fields.get, if_neg e, ih]

theorem Fields.get_del_other (h : Fields) (k k2 : GoString) (hne : k ≠ k2) :
    (h.del k).get k2 = h.get k2 := by
  induction h with
  | nil => rfl
  | cons kv t ih =>
    by_cases e : kv.1 = k
    · have e2 : kv.1 ≠ k2 := fun x => hne (e ▸ x)
      rw [Fields.del, if_pos e, ih, Fields.get, if_neg e2]
    · by_cases e3 : kv.1 = k2
      · rw [Fields.del, if_neg e, Fields.get, if_pos e3, Fields.get, if_pos e3]
      · rw [Fields.del, if_neg e, Fields.get, if_neg e3, Fields.get, if_neg e3, ih]

theorem Fields.get_foldl_del (ks : List GoString) (h : Fields) (k : GoString) :
    (ks.foldl Fields.del h).get k = if k ∈ ks then [] else h.get k := by
  induction ks generalizing h with
  | nil => simp
  | cons k0 ks ih =>
    rw [List.foldl_cons, ih]
    by_cases hk : k ∈ ks
    · simp [hk]
    · by_cases e : k0 = k
      · subst e
        simp [hk, Fields.get_del_self]
      · have e2 : ¬ k = k0 := fun x => e x.symm
        simp [hk, e2, Fields.get_del_other _ _ _ e]

theorem Fields.get_foldl_set (kvs : Fields) (h : Fields) (k : GoString)
    (hk : ∀ kv ∈ kvs, kv.1 ≠ k) :
    (kvs.foldl (fun acc kv => acc.set kv.1 kv.2) h).get k = h.get k := by
  induction kvs generalizing h with
  | nil => rfl
  | cons kv kvs ih =>
    rw [List.foldl_cons, ih _ (fun x hx => hk x (List.mem_cons_of_mem _ hx)),
      Fields.get_set_other _ _ _ _ (hk kv (List.mem_cons_self _ _))]

theorem Served.edit_get (a : Served) (h : Fields) (k : GoString)
    (hset : ∀ kv ∈ a.set, kv.1 ≠ k) :
    (a.edit h).get k = if k ∈ a.deleted then [] else h.get k := by
  rw [Served.edit, Fields.get_foldl_set _ _ _ hset, Fields.get_foldl_del]

theorem sendFile_policy (env : Env) (ct : GoString) (hr : HandlerReq) (wd : World)
    (hw : wd.w.wrote = none) (hgo : servesLikeGo env) :
    policyUpToStrip (servedStripped env hr (sendFile env ct hr wd).events)
      (sendFile env ct hr wd).w.sent wd.w.header := by
  intro k hk
  have hct : "Content-Type".toList ≠ k := by
    intro h; subst h; revert hk; decide
  have hcl : "Content-Length".toList ≠ k := by
    intro h; subst h; revert hk; decide
  have hlm : "Last-Modified".toList ≠ k := by
    intro h; subst h; revert hk; decide
  cases hst : env.stat (pathJoin hr.Dir hr.File) with
  | notExist =>
    left
    simp [sendFile, hst, World.onW, World.log, renderNotFound, ResponseWriter.WriteHeader,
      ResponseWriter.Write, ResponseWriter.sent, hw]
  | otherError =>
    left
    simp [sendFile, hst, World.log, ResponseWriter.sent, hw]
  | ok size modTime =>
    have hev : Event.serveFile (pathJoin hr.Dir hr.File) ∈ (sendFile env ct hr wd).events := by
      simp [sendFile, hst, World.onW, World.log]
    simp only [sendFile, hst, World.onW, World.log, ResponseWriter.WriteHeader,
      ResponseWriter.Write, ResponseWriter.sent, ResponseWriter.Set, hw] at hev ⊢
    generalize hH : ((wd.w.header.set "Content-Type".toList ct).set "Content-Length".toList
      (fmtInt ↑size)).set "Last-Modified".toList modTime = H
    have hHk : H.get k = wd.w.header.get k := by
      rw [← hH, Fields.get_set_other _ _ _ _ hlm, Fields.get_set_other _ _ _ _ hcl,
        Fields.get_set_other _ _ _ _ hct]
    obtain ⟨hset, hdel⟩ := hgo (pathJoin hr.Dir hr.File) hr.r H
    have hset2 : ∀ kv ∈ (env.serveFile (pathJoin hr.Dir hr.File) hr.r H).set, kv.1 ≠ k :=
      fun kv hkv e => hset kv hkv (e ▸ hk)
    rw [Served.edit_get _ _ _ hset2, hHk]
    by_cases hin : k ∈ (env.serveFile (pathJoin hr.Dir hr.File) hr.r H).deleted
    · have hcc := hdel k hin hk
      exact Or.inr ⟨hcc, by simp [hin], hev, H, hcc ▸ hin⟩
    · left
      simp [hin]

theorem getInfoRefs_policy (env : Env) (hr : HandlerReq) (wd : World)
    (hw : wd.w.wrote = none) (hgo : servesLikeGo env) :
    policyUpToStrip (servedStripped env hr (getInfoRefs env hr wd).events)
      (getInfoRefs env hr wd).w.sent (hdrNocache wd.w).header := by
  have hw2 : (hdrNocache wd.w).wrote = none := by
    simp [hdrNocache, ResponseWriter.Set, hw]
  unfold getInfoRefs
  simp only []
  split_ifs
  · have := sendFile_policy env "text/plain; charset=utf-8".toList hr
      (updateServerInfo env hr.Dir (wd.onW hdrNocache)).1
      (by simpa [updateServerInfo, gitCommand, World.onW, World.log] using hw2) hgo
    simpa [updateServerInfo, gitCommand, World.onW, World.log] using this
  · intro k hk
    have hct : "Content-Type".toList ≠ k := by
      intro h; subst h; revert hk; decide
    left
    simp only [gitCommand, World.onW, World.log, ResponseWriter.WriteHeader,
      ResponseWriter.Write, ResponseWriter.sent, ResponseWriter.Set] at hw2 ⊢
    simp only [hw2]
    rw [Fields.get_set_other _ _ _ _ hct]

theorem nocache_of_policy (strip : Prop) (s h : Fields) (hp : policyUpToStrip strip s h)
    (hn : isNocache h) :
    isNocacheStripped s ∧ (isNocache s ∨ (s.get "Cache-Control".toList = [] ∧ strip)) ∧
      ¬ isMixedPolicy s := by
  have hcc := hp "Cache-Control".toList (by decide)
  have hpr := hp "Pragma".toList (by decide)
  have hex := hp "Expires".toList (by decide)
  have epr : s.get "Pragma".toList = h.get "Pragma".toList := by
    rcases hpr with e | ⟨e, _⟩
    · exact e
    · exact absurd e (by decide)
  have eex : s.get "Expires".toList = h.get "Expires".toList := by
    rcases hex with e | ⟨e, _⟩
    · exact e
    · exact absurd e (by decide)
  have ecc : s.get "Cache-Control".toList = "no-cache, max-age=0, must-revalidate".toList ∨
      s.get "Cache-Control".toList = [] := by
    rcases hcc with e | ⟨_, e, _⟩
    · exact Or.inl (e.trans hn.1)
    · exact Or.inr e
  refine ⟨⟨ecc, epr.trans hn.2.1, eex.trans hn.2.2⟩, ?_, ?_⟩
  · rcases hcc with e | ⟨_, e, hs⟩
    · exact Or.inl ⟨e.trans hn.1, epr.trans hn.2.1, eex.trans hn.2.2⟩
    · exact Or.inr ⟨e, hs⟩
  · rintro (⟨_, t, ht⟩ | ⟨hc, _⟩)
    · exact fmtInt_ne_fixed_date t (ht.symm.trans (eex.trans hn.2.2))
    · rcases ecc with e | e
      · exact absurd (e.symm.trans hc) (by decide)
      · exact absurd (e.symm.trans hc) (by decide)

theorem cacheForever_of_policy (strip : Prop) (now : Int) (s h : Fields)
    (hp : policyUpToStrip strip s h) (hn : isCacheForever now h) :
    isCacheForeverStripped now s ∧
      (isCacheForever now s ∨ (s.get "Cache-Control".toList = [] ∧ strip)) ∧
      ¬ isMixedPolicy s := by
  have hcc := hp "Cache-Control".toList (by decide)
  have hda := hp "Date".toList (by decide)
  have hex := hp "Expires".toList (by decide)
  have eda : s.get "Date".toList = h.get "Date".toList := by
    rcases hda with e | ⟨e, _⟩
    · exact e
    · exact absurd e (by decide)
  have eex : s.get "Expires".toList = h.get "Expires".toList := by
    rcases hex with e | ⟨e, _⟩
    · exact e
    · exact absurd e (by decide)
  have ecc : s.get "Cache-Control".toList = "public, max-age=31536000".toList ∨
      s.get "Cache-Control".toList = [] := by
    rcases hcc with e | ⟨_, e, _⟩
    · exact Or.inl (e.trans hn.1)
    · exact Or.inr e
  refine ⟨⟨ecc, eda.trans hn.2.1, eex.trans hn.2.2⟩, ?_, ?_⟩
  · rcases hcc with e | ⟨_, e, hs⟩
    · exact Or.inl ⟨e.trans hn.1, eda.trans hn.2.1, eex.trans hn.2.2⟩
    · exact Or.inr ⟨e, hs⟩
  · rintro (⟨hc, _⟩ | ⟨_, he⟩)
    · rcases ecc with e | e
      · exact absurd (e.symm.trans hc) (by decide)
      · exact absurd (e.symm.trans hc) (by decide)
    · exact fmtInt_ne_fixed_date _ ((eex.trans hn.2.2).symm.trans he)

theorem demoEnv_servesLikeGo : servesLikeGo demoEnv := by
  intro name r hdr
  by_cases h : r.Header.get "Range".toList = "bytes=100-200".toList
  · simp only [demoEnv, h, if_true]
    decide
  · simp only [demoEnv, h, if_false]
    decide

/-- C8, as stated, fails: `getInfoPacks` sets the cache-forever fields, but for
`GET /repo.git/objects/info/packs` with `Range: bytes=100-200` on the 4-byte file
`http.ServeFile` answers 416 and removes `Cache-Control` from the header map first (Go 1.23 and
later), so the response carries `Date` and the `Expires` of the policy but no `Cache-Control`
field. -/
theorem range_error_drops_cache_control :
    (getInfoPacks demoEnv demoRangeRequest ⟨ResponseWriter.fresh, [], false⟩).w.status = 416 ∧
    (∀ kv ∈ (getInfoPacks demoEnv demoRangeRequest ⟨ResponseWriter.fresh, [], false⟩).w.sent,
      kv.1 ≠ "Cache-Control".toList) ∧
    (getInfoPacks demoEnv demoRangeRequest ⟨ResponseWriter.fresh, [], false⟩).w.sent.get
      "Date".toList = "1700000000".toList ∧
    (getInfoPacks demoEnv demoRangeRequest ⟨ResponseWriter.fresh, [], false⟩).w.sent.get
      "Expires".toList = "1731536000".toList := by
  decide

/-- C8, amended: the route table binds HEAD, alternates, http-alternates and generic info
files to `getTextFile`, info/refs to `getInfoRefs`, and objects/info/packs, loose objects, pack
files and idx files to `getInfoPacks`, `getLooseObject`, `getPackFile`, `getIdxFile`.  Started
on a writer `w` whose status is not yet written, with a file server that sets none of the four
policy fields and deletes at most `Cache-Control` among them, `getTextFile` and `getInfoRefs`
leave `Pragma: no-cache` and the fixed past `Expires` on the response that is sent, and the
other four leave `Date: now` and `Expires: now + 31536000` (for a clock value `now` whose sum
with 31536000 is still an `int64`).  The `Cache-Control` of the policy is on the response too;
the one exception is that the field is missing after the file server was called for the file
and deleted it.  In neither case does the response carry the `Cache-Control` of one policy with
the `Expires` of the other. -/
theorem handler_header_policy (env : Env) (hr : HandlerReq) (w : ResponseWriter)
    (hw : w.wrote = none)
    (h1 : -2 ^ 63 ≤ env.now) (h2 : env.now + 31536000 < 2 ^ 63)
    (hgo : servesLikeGo env) :
    services.map (fun s => s.2.Handler)
      = [.serviceRpc, .serviceRpc, .getInfoRefs, .getTextFile, .getTextFile, .getTextFile,
         .getInfoPacks, .getTextFile, .getLooseObject, .getPackFile, .getIdxFile] ∧
    (∀ h : HandlerId, h = .getTextFile ∨ h = .getInfoRefs →
      isNocacheStripped (h.run env hr ⟨w, [], false⟩).w.sent ∧
      (isNocache (h.run env hr ⟨w, [], false⟩).w.sent ∨
        ((h.run env hr ⟨w, [], false⟩).w.sent.get "Cache-Control".toList = [] ∧
          servedStripped env hr (h.run env hr ⟨w, [], false⟩).events)) ∧
      ¬ isMixedPolicy (h.run env hr ⟨w, [], false⟩).w.sent) ∧
    (∀ h : HandlerId,
      h = .getInfoPacks ∨ h = .getLooseObject ∨ h = .getPackFile ∨ h = .getIdxFile →
      isCacheForeverStripped env.now (h.run env hr ⟨w, [], false⟩).w.sent ∧
      (isCacheForever env.now (h.run env hr ⟨w, [], false⟩).w.sent ∨
        ((h.run env hr ⟨w, [], false⟩).w.sent.get "Cache-Control".toList = [] ∧
          servedStripped env hr (h.run env hr ⟨w, [], false⟩).events)) ∧
      ¬ isMixedPolicy (h.run env hr ⟨w, [], false⟩).w.sent) := by
  have hN : ∀ ct, policyUpToStrip _ (sendFile env ct hr (World.onW ⟨w, [], false⟩
      hdrNocache)).w.sent (hdrNocache w).header := fun ct =>
    sendFile_policy env ct hr (World.onW ⟨w, [], false⟩ hdrNocache)
      (by simp [World.onW, hdrNocache, ResponseWriter.Set, hw]) hgo
  have hC : ∀ ct, policyUpToStrip _ (sendFile env ct hr (World.onW ⟨w, [], false⟩
      (hdrCacheForever env))).w.sent (hdrCacheForever env w).header := fun ct =>
    sendFile_policy env ct hr (World.onW ⟨w, [], false⟩ (hdrCacheForever env))
      (by simp [World.onW, hdrCacheForever, ResponseWriter.Set, hw]) hgo
  have hR := getInfoRefs_policy env hr ⟨w, [], false⟩ hw hgo
  have nN := hdrNocache_isNocache w
  have nC := hdrCacheForever_isCacheForever env w h1 h2
  refine ⟨by decide, ?_, ?_⟩
  · rintro h (rfl | rfl)
    · exact nocache_of_policy _ _ _ (hN _) nN
    · exact nocache_of_policy _ _ _ hR nN
  · rintro h (rfl | rfl | rfl | rfl)
    · exact cacheForever_of_policy _ _ _ _ (hC _) nC
    · exact cacheForever_of_policy _ _ _ _ (hC _) nC
    · exact cacheForever_of_policy _ _ _ _ (hC _) nC
    · exact cacheForever_of_policy _ _ _ _ (hC _) nC

theorem handler_header_policy_witness :
    services.map (fun s => s.2.Handler)
      = [.serviceRpc, .serviceRpc, .getInfoRefs, .getTextFile, .getTextFile, .getTextFile,
         .getInfoPacks, .getTextFile, .getLooseObject, .getPackFile, .getIdxFile] ∧
    (∀ h : HandlerId, h = .getTextFile ∨ h = .getInfoRefs →
      isNocacheStripped
        (h.run demoEnv demoRangeRequest ⟨ResponseWriter.fresh, [], false⟩).w.sent ∧
      (isNocache (h.run demoEnv demoRangeRequest ⟨ResponseWriter.fresh, [], false⟩).w.sent ∨
        ((h.run demoEnv demoRangeRequest ⟨ResponseWriter.fresh, [], false⟩).w.sent.get
            "Cache-Control".toList = [] ∧
          servedStripped demoEnv demoRangeRequest
            (h.run demoEnv demoRangeRequest ⟨ResponseWriter.fresh, [], false⟩).events)) ∧
      ¬ isMixedPolicy
        (h.run demoEnv demoRangeRequest ⟨ResponseWriter.fresh, [], false⟩).w.sent) ∧
    (∀ h : HandlerId,
      h = .getInfoPacks ∨ h = .getLooseObject ∨ h = .getPackFile ∨ h = .getIdxFile →
      isCacheForeverStripped demoEnv.now
        (h.run demoEnv demoRangeRequest ⟨ResponseWriter.fresh, [], false⟩).w.sent ∧
      (isCacheForever demoEnv.now
          (h.run demoEnv demoRangeRequest ⟨ResponseWriter.fresh, [], false⟩).w.sent ∨
        ((h.run demoEnv demoRangeRequest ⟨ResponseWriter.fresh, [], false⟩).w.sent.get
            "Cache-Control".toList = [] ∧
          servedStripped demoEnv demoRangeRequest
            (h.run demoEnv demoRangeRequest ⟨ResponseWriter.fresh, [], false⟩).events)) ∧
      ¬ isMixedPolicy
        (h.run demoEnv demoRangeRequest ⟨ResponseWriter.fresh, [], false⟩).w.sent) :=
  handler_header_policy demoEnv demoRangeRequest ResponseWriter.fresh rfl
    (by decide) (by decide) demoEnv_servesLikeGo

/-! ## Theorems: the pattern matcher -/

theorem lazyLoop_sound {R : Type} (a : Atom) (k : GoString → Option R) (s : GoString) (r : R)
    (h : lazyLoop a k s = some r) :
    ∃ pre t, s = pre ++ t ∧ (∀ x ∈ pre, a.test x = true) ∧ k t = some r := by
  induction s with
  | nil => exact ⟨[], [], rfl, by simp, h⟩
  | cons c t ih =>
    rw [lazyLoop] at h
    cases hk : k (c :: t) with
    | some r2 =>
      rw [hk] at h
      exact ⟨[], c :: t, rfl, by simp, by rw [hk]; exact h⟩
    | none =>
      rw [hk] at h
      by_cases ht : a.test c = true
      · simp only [ht, if_true] at h
        obtain ⟨pre, t2, e, hp, hk2⟩ := ih h
        refine ⟨c :: pre, t2, by rw [e]; rfl, ?_, hk2⟩
        intro x hx
        rcases List.mem_cons.mp hx with h1 | h1
        · rw [h1]; exact ht
        · exact hp x h1
      · simp [ht] at h

theorem lazyLoop_complete {R : Type} (a : Atom) (k : GoString → Option R) (pre t : GoString)
    (hp : ∀ x ∈ pre, a.test x = true) (hk : (k t).isSome = true) :
    (lazyLoop a k (pre ++ t)).isSome = true := by
  induction pre with
  | nil =>
    cases t with
    | nil => simpa [lazyLoop] using hk
    | cons c t2 =>
      simp only [List.nil_append, lazyLoop]
      cases hk2 : k (c :: t2) with
      | some r => rfl
      | none => rw [hk2] at hk; exact absurd hk (by simp)
  | cons c pre ih =>
    have ih2 := ih (fun x hx => hp x (List.mem_cons_of_mem _ hx))
    have hc : a.test c = true := hp c (List.mem_cons_self _ _)
    simp only [List.cons_append, lazyLoop]
    cases hk2 : k (c :: (pre ++ t)) with
    | some r => rfl
    | none => simpa [hc] using ih2

theorem greedyLoop_sound {R : Type} (a : Atom) (k : GoString → Option R) (s : GoString) (r : R)
    (h : greedyLoop a k s = some r) :
    ∃ pre t, s = pre ++ t ∧ (∀ x ∈ pre, a.test x = true) ∧ k t = some r := by
  induction s with
  | nil => exact ⟨[], [], rfl, by simp, h⟩
  | cons c t ih =>
    rw [greedyLoop] at h
    by_cases ht : a.test c = true
    · simp only [ht, if_true] at h
      cases hg : greedyLoop a k t with
      | some r2 =>
        rw [hg] at h
        obtain ⟨pre, t2, e, hp, hk2⟩ := ih (by rw [hg]; exact h)
        refine ⟨c :: pre, t2, by rw [e]; rfl, ?_, hk2⟩
        intro x hx
        rcases List.mem_cons.mp hx with h1 | h1
        · rw [h1]; exact ht
        · exact hp x h1
      | none =>
        rw [hg] at h
        exact ⟨[], c :: t, rfl, by simp, h⟩
    · simp only [ht] at h
      exact ⟨[], c :: t, rfl, by simp, h⟩

theorem takeRep_sound (a : Atom) (n : Nat) (s t : GoString) (h : takeRep a n s = some t) :
    ∃ x, s = x ++ t ∧ x.length = n ∧ ∀ y ∈ x, a.test y = true := by
  induction n generalizing s with
  | zero =>
    simp only [takeRep, Option.some.injEq] at h
    exact ⟨[], by simp [h], rfl, by simp⟩
  | succ n ih =>
    cases s with
    | nil => simp [takeRep] at h
    | cons c s2 =>
      by_cases hc : a.test c = true
      · simp only [takeRep, hc, if_true] at h
        obtain ⟨x, e, hl, hx⟩ := ih s2 h
        refine ⟨c :: x, by rw [e]; rfl, by simp [hl], ?_⟩
        intro y hy
        rcases List.mem_cons.mp hy with h1 | h1
        · rw [h1]; exact hc
        · exact hx y h1
      · simp [takeRep, hc] at h

theorem takeRep_complete (a : Atom) (x t : GoString) (hx : ∀ y ∈ x, a.test y = true) :
    takeRep a x.length (x ++ t) = some t := by
  induction x with
  | nil => rfl
  | cons c x ih =>
    have hc : a.test c = true := hx c (List.mem_cons_self _ _)
    simp only [List.length_cons, List.cons_append, takeRep, hc, if_true]
    exact ih (fun y hy => hx y (List.mem_cons_of_mem _ hy))

/-- Matching a concatenation: the second part is matched on an end piece of the input. -/
theorem matchNodes_append_sound (x y : Regex) (c : Caps) (s : GoString) (r : Caps × GoString)
    (h : matchNodes (x ++ y) c s = some r) :
    ∃ c2 t, t <:+ s ∧ matchNodes y c2 t = some r := by
  induction x generalizing c s with
  | nil => exact ⟨c, s, List.suffix_refl _, h⟩
  | cons n x ih =>
    cases n with
    | one a =>
      cases s with
      | nil => simp [matchNodes] at h
      | cons z t =>
        by_cases hz : a.test z = true
        · simp only [List.cons_append, matchNodes, hz, if_true] at h
          obtain ⟨c2, t2, hs, hm⟩ := ih c t h
          exact ⟨c2, t2, hs.trans (List.suffix_cons _ _), hm⟩
        · simp [matchNodes, hz] at h
    | rep a k =>
      simp only [List.cons_append, matchNodes] at h
      cases ht : takeRep a k s with
      | none => rw [ht] at h; simp at h
      | some t =>
        rw [ht] at h
        obtain ⟨w, e, _, _⟩ := takeRep_sound a k s t ht
        obtain ⟨c2, t2, hs, hm⟩ := ih c t h
        exact ⟨c2, t2, hs.trans ⟨w, e.symm⟩, hm⟩
    | star a =>
      simp only [List.cons_append, matchNodes] at h
      obtain ⟨pre, t, e, _, hk⟩ := greedyLoop_sound a _ s r h
      obtain ⟨c2, t2, hs, hm⟩ := ih c t hk
      exact ⟨c2, t2, hs.trans ⟨pre, e.symm⟩, hm⟩
    | lazy a =>
      simp only [List.cons_append, matchNodes] at h
      obtain ⟨pre, t, e, _, hk⟩ := lazyLoop_sound a _ s r h
      obtain ⟨c2, t2, hs, hm⟩ := ih c t hk
      exact ⟨c2, t2, hs.trans ⟨pre, e.symm⟩, hm⟩
    | groupOpen =>
      simp only [List.cons_append, matchNodes] at h
      exact ih _ s h
    | groupClose =>
      simp only [List.cons_append, matchNodes] at h
      exact ih _ s h
    | eot =>
      simp only [List.cons_append, matchNodes] at h
      by_cases hs : s = []
      · simp only [hs, if_true] at h
        obtain ⟨c2, t2, hs2, hm⟩ := ih c [] h
        exact ⟨c2, t2, by rw [hs]; exact hs2, hm⟩
      · simp [hs] at h

theorem matchAt_some (re : Regex) (s : GoString) (m : GoString × GoString)
    (h : matchAt re s = some m) :
    ∃ c rest, matchNodes re ⟨s, s⟩ s = some (c, rest) ∧
      m = (s.take (s.length - rest.length), c.atOpen.take (c.atOpen.length - c.atClose.length)) := by
  unfold matchAt at h
  cases hm : matchNodes re ⟨s, s⟩ s with
  | none => rw [hm] at h; simp at h
  | some p =>
    rw [hm] at h
    obtain ⟨c, rest⟩ := p
    simp only [Option.some.injEq] at h
    exact ⟨c, rest, rfl, h.symm⟩

theorem matchAt_isSome (re : Regex) (s : GoString) :
    (matchAt re s).isSome = (matchNodes re ⟨s, s⟩ s).isSome := by
  unfold matchAt
  cases matchNodes re ⟨s, s⟩ s <;> rfl

theorem find_sound (re : Regex) (s : GoString) (m : GoString × GoString)
    (h : FindStringSubmatch re s = some m) :
    ∃ skipped t, s = skipped ++ t ∧ matchAt re t = some m := by
  induction s with
  | nil => exact ⟨[], [], rfl, h⟩
  | cons c t ih =>
    rw [FindStringSubmatch] at h
    cases hm : matchAt re (c :: t) with
    | some m2 =>
      rw [hm] at h
      exact ⟨[], c :: t, rfl, by rw [hm]; exact h⟩
    | none =>
      rw [hm] at h
      obtain ⟨sk, t2, e, h2⟩ := ih h
      exact ⟨c :: sk, t2, by rw [e]; rfl, h2⟩

theorem find_complete (re : Regex) (skipped t : GoString)
    (h : (matchAt re t).isSome = true) :
    (FindStringSubmatch re (skipped ++ t)).isSome = true := by
  induction skipped with
  | nil =>
    cases t with
    | nil => exact h
    | cons c t2 =>
      simp only [List.nil_append, FindStringSubmatch]
      cases hm : matchAt re (c :: t2) with
      | some m => rfl
      | none => rw [hm] at h; exact absurd h (by simp)
  | cons c sk ih =>
    simp only [List.cons_append, FindStringSubmatch]
    cases hm : matchAt re (c :: (sk ++ t)) with
    | some m => rfl
    | none => exact ih

theorem find_of_matchAt (re : Regex) (s : GoString) (m : GoString × GoString)
    (h : matchAt re s = some m) : FindStringSubmatch re s = some m := by
  cases s with
  | nil => exact h
  | cons c t => rw [FindStringSubmatch, h]

/-! ## Theorems: the dispatcher -/

theorem serveRoutes_first_match (env : Env) (r : Request) (pre post : List (Regex × Service))
    (re : Regex) (svc : Service) (m : GoString × GoString) (wd : World)
    (hpre : ∀ x ∈ pre, FindStringSubmatch x.1 r.Path = none)
    (hm : FindStringSubmatch re r.Path = some m) :
    serveRoutes env r (pre ++ (re, svc) :: post) wd = serveMatch env r svc m wd := by
  induction pre with
  | nil => simp [serveRoutes, hm]
  | cons x pre ih =>
    obtain ⟨re2, svc2⟩ := x
    have h1 : FindStringSubmatch re2 r.Path = none := hpre (re2, svc2) (List.mem_cons_self _ _)
    simp only [List.cons_append, serveRoutes, h1]
    exact ih (fun y hy => hpre y (List.mem_cons_of_mem _ hy))

/-- C3, as stated, fails: the path of `POST /repo.git/objects/info/git-upload-pack` matches the
pattern of the generic `objects/info/*` route, whose method is `GET`, yet with the table tried
in its declared order the dispatcher does not answer 405: the upload-pack route matches first,
`serviceRpc` is called and the response is 200. -/
theorem method_mismatch_not_first_route :
    (∃ route ∈ services, routeMatches route.1 demoOverlapPost.Path = true ∧
      route.2.Method ≠ demoOverlapPost.Method) ∧
    (Handler demoEnv services ResponseWriter.fresh demoOverlapPost).w.status = 200 ∧
    handlersCalled (Handler demoEnv services ResponseWriter.fresh demoOverlapPost).events
      = [.serviceRpc] := by
  decide

/-- C3, amended: let `order` be the order in which the route table is iterated.  When the first
route of `order` whose pattern matches the request path has a required method different from
the request's, the dispatcher answers 405 `Method Not Allowed` if the protocol is exactly
`HTTP/1.1` and 400 `Bad Request` otherwise, and nothing else happens: the repository directory
is not resolved, no handler is called, and the routes after that one are not looked at. -/
theorem method_mismatch_first_route (env : Env) (r : Request)
    (order pre post : List (Regex × Service)) (re : Regex) (svc : Service)
    (m : GoString × GoString)
    (_hperm : order.Perm services)
    (horder : order = pre ++ (re, svc) :: post)
    (hpre : ∀ x ∈ pre, FindStringSubmatch x.1 r.Path = none)
    (hm : FindStringSubmatch re r.Path = some m)
    (hmeth : svc.Method ≠ r.Method) :
    Handler env order ResponseWriter.fresh r
      = ⟨if r.Proto = "HTTP/1.1".toList then
            ⟨[], some (405, []), "Method Not Allowed".toList⟩
          else ⟨[], some (400, []), "Bad Request".toList⟩, [], false⟩ := by
  rw [Handler, horder, serveRoutes_first_match env r pre post re svc m _ hpre hm]
  simp only [serveMatch, if_pos hmeth, World.onW, renderMethodNotAllowed]
  split_ifs <;> rfl

theorem method_mismatch_first_route_witness :
    Handler demoEnv services ResponseWriter.fresh demoPutInfoRefs
      = ⟨if demoPutInfoRefs.Proto = "HTTP/1.1".toList then
            ⟨[], some (405, []), "Method Not Allowed".toList⟩
          else ⟨[], some (400, []), "Bad Request".toList⟩, [], false⟩ :=
  method_mismatch_first_route demoEnv demoPutInfoRefs services (services.take 2)
    (services.drop 3) (lazyGroup ++ lit "/info/refs" ++ [.eot]) ⟨"GET".toList, .getInfoRefs, []⟩
    ("/repo.git/info/refs".toList, "/repo.git".toList)
    (List.Perm.refl _) (by decide) (by decide) (by decide) (by decide)

/-- C4, as stated, fails, in two ways.  The path of `GET /nope/objects/info/git-upload-pack`
matches the generic `objects/info/*` route, whose method is `GET`, and the segment `/nope` that
the pattern captures does not exist under the root; yet with the table tried in its declared
order the dispatcher answers 405 `Method Not Allowed`, because the upload-pack route matches
first.  And for `GET /repo.git/HEAD/x/info/refs?service=git-upload-pack` the captured segment
`/repo.git/HEAD/x` is not on disk (it lies below the regular file `HEAD`), but `os.Stat` fails
with an error that is not "not exist", so the check passes: `getInfoRefs` is called, `git` is
run and the answer is 200. -/
theorem repo_not_found_not_first_route :
    (∃ route ∈ services,
      FindStringSubmatch route.1 demoOverlapGet.Path
        = some ("/nope/objects/info/git-upload-pack".toList, "/nope".toList) ∧
      route.2.Method = demoOverlapGet.Method) ∧
    demoEnv.stat (pathJoin demoEnv.ProjectRoot "/nope".toList) = .notExist ∧
    (Handler demoEnv services ResponseWriter.fresh demoOverlapGet).w
      = ⟨[], some (405, []), "Method Not Allowed".toList⟩ ∧
    FindStringSubmatch (lazyGroup ++ lit "/info/refs" ++ [.eot]) demoBelowFile.Path
      = some ("/repo.git/HEAD/x/info/refs".toList, "/repo.git/HEAD/x".toList) ∧
    demoEnv.stat (pathJoin demoEnv.ProjectRoot "/repo.git/HEAD/x".toList) = .otherError ∧
    (Handler demoEnv services ResponseWriter.fresh demoBelowFile).w.status = 200 ∧
    handlersCalled (Handler demoEnv services ResponseWriter.fresh demoBelowFile).events
      = [.getInfoRefs] ∧
    (execs (Handler demoEnv services ResponseWriter.fresh demoBelowFile).events).length = 1 := by
  decide

/-- C4, amended: let `order` be the order in which the route table is iterated.  When the first
route of `order` whose pattern matches the request path has the request's method, and
`os.Stat` reports the segment captured by that route, joined onto the root (`ProjectRoot`, or
the working directory when that is empty), as not existing (an error for which
`os.IsNotExist` holds), the dispatcher answers 404 `Not Found`, calls no handler and runs no
child process; this holds for every route of the table. -/
theorem repo_not_found_first_route (env : Env) (r : Request)
    (order pre post : List (Regex × Service)) (re : Regex) (svc : Service)
    (m : GoString × GoString) (root : GoString)
    (_hperm : order.Perm services)
    (horder : order = pre ++ (re, svc) :: post)
    (hpre : ∀ x ∈ pre, FindStringSubmatch x.1 r.Path = none)
    (hm : FindStringSubmatch re r.Path = some m)
    (hmeth : svc.Method = r.Method)
    (hroot : repoRoot env = some root)
    (hstat : env.stat (pathJoin root m.2) = .notExist) :
    (Handler env order ResponseWriter.fresh r).w = ⟨[], some (404, []), "Not Found".toList⟩ ∧
    handlersCalled (Handler env order ResponseWriter.fresh r).events = [] ∧
    execs (Handler env order ResponseWriter.fresh r).events = [] := by
  rw [Handler, horder, serveRoutes_first_match env r pre post re svc m _ hpre hm]
  have hne : ¬ svc.Method ≠ r.Method := fun h => h hmeth
  simp only [serveMatch, if_neg hne]
  unfold repoRoot at hroot
  by_cases hp : env.ProjectRoot = []
  · rw [if_pos hp] at hroot
    simp [getRepoGitDir, hp, hroot, hstat, World.onW, World.log, renderNotFound,
      ResponseWriter.WriteHeader, ResponseWriter.Write, ResponseWriter.fresh, handlersCalled,
      execs]
  · rw [if_neg hp] at hroot
    have hr2 : root = env.ProjectRoot := by simpa using hroot.symm
    subst hr2
    simp [getRepoGitDir, hp, hstat, World.onW, World.log, renderNotFound,
      ResponseWriter.WriteHeader, ResponseWriter.Write, ResponseWriter.fresh, handlersCalled,
      execs]

theorem repo_not_found_first_route_witness :
    (Handler demoEnv services ResponseWriter.fresh demoMissingRepo).w
      = ⟨[], some (404, []), "Not Found".toList⟩ ∧
    handlersCalled (Handler demoEnv services ResponseWriter.fresh demoMissingRepo).events = [] ∧
    execs (Handler demoEnv services ResponseWriter.fresh demoMissingRepo).events = [] :=
  repo_not_found_first_route demoEnv demoMissingRepo services (services.take 3)
    (services.drop 4) (lazyGroup ++ lit "/HEAD" ++ [.eot]) ⟨"GET".toList, .getTextFile, []⟩
    ("/nope.git/HEAD".toList, "/nope.git".toList) "/srv".toList
    (List.Perm.refl _) (by decide) (by decide) (by decide) (by decide) (by decide) (by decide)

/-- C6, on the code: `services.reverse` is an order in which the map can be iterated; with it
the request `GET /repo.git/objects/info/packs` (repository and file existing) reaches the
generic text handler `getTextFile`, and the response carries `Content-Type: text/plain` and the
non-cacheable `Cache-Control`, while in the declared order it reaches `getInfoPacks`. -/
theorem info_packs_depends_on_order :
    services.reverse.Perm services ∧
    handlersCalled (Handler demoEnv services.reverse ResponseWriter.fresh demoInfoPacks).events
      = [.getTextFile] ∧
    (Handler demoEnv services.reverse ResponseWriter.fresh demoInfoPacks).w.sent.get
      "Content-Type".toList = "text/plain".toList ∧
    (Handler demoEnv services.reverse ResponseWriter.fresh demoInfoPacks).w.sent.get
      "Cache-Control".toList = "no-cache, max-age=0, must-revalidate".toList ∧
    handlersCalled (Handler demoEnv services ResponseWriter.fresh demoInfoPacks).events
      = [.getInfoPacks] ∧
    (Handler demoEnv services ResponseWriter.fresh demoInfoPacks).w.sent.get
      "Cache-Control".toList = "public, max-age=31536000".toList :=
  ⟨List.reverse_perm _, by decide, by decide, by decide, by decide, by decide⟩

/-! ## Theorems: captured repository path and residual path -/

theorem greedyLoop_map {R S : Type} (f : R → S) (a : Atom) (k : GoString → Option R)
    (k2 : GoString → Option S) (h : ∀ t, k2 t = (k t).map f) (s : GoString) :
    greedyLoop a k2 s = (greedyLoop a k s).map f := by
  induction s with
  | nil => simp [greedyLoop, h]
  | cons c t ih =>
    simp only [greedyLoop, ih, h]
    by_cases hc : a.test c = true
    · simp only [hc, if_true]
      cases greedyLoop a k t <;> rfl
    · simp [hc]

theorem lazyLoop_map {R S : Type} (f : R → S) (a : Atom) (k : GoString → Option R)
    (k2 : GoString → Option S) (h : ∀ t, k2 t = (k t).map f) (s : GoString) :
    lazyLoop a k2 s = (lazyLoop a k s).map f := by
  induction s with
  | nil => simp [lazyLoop, h]
  | cons c t ih =>
    simp only [lazyLoop, ih, h]
    cases k (c :: t) with
    | some r => rfl
    | none =>
      by_cases hc : a.test c = true
      · simp [hc]
      · simp [hc]

/-- A pattern without capture brackets hands the capture marks through unchanged, and whether
and where it matches does not depend on them. -/
theorem matchNodes_capFree (re : Regex) (hfree : capFree re = true) (c : Caps) (s : GoString) :
    matchNodes re c s = (matchNodes re ⟨[], []⟩ s).map fun p => (c, p.2) := by
  induction re generalizing s with
  | nil => simp [matchNodes]
  | cons n re ih =>
    cases n with
    | one a =>
      have ih2 := ih (by simpa [capFree] using hfree)
      cases s with
      | nil => simp [matchNodes]
      | cons z t =>
        by_cases hz : a.test z = true
        · simp only [matchNodes, hz, if_true]; exact ih2 t
        · simp [matchNodes, hz]
    | rep a k =>
      have ih2 := ih (by simpa [capFree] using hfree)
      simp only [matchNodes]
      cases takeRep a k s with
      | none => rfl
      | some t => exact ih2 t
    | star a =>
      have ih2 := ih (by simpa [capFree] using hfree)
      simp only [matchNodes]
      exact greedyLoop_map _ a _ _ ih2 s
    | lazy a =>
      have ih2 := ih (by simpa [capFree] using hfree)
      simp only [matchNodes]
      exact lazyLoop_map _ a _ _ ih2 s
    | groupOpen => simp [capFree] at hfree
    | groupClose => simp [capFree] at hfree
    | eot =>
      have ih2 := ih (by simpa [capFree] using hfree)
      simp only [matchNodes]
      by_cases hs : s = []
      · simp only [hs, if_true]; exact ih2 []
      · simp [hs]

theorem services_are_route_patterns : ∀ route ∈ services, isRoutePattern route.1 = true := by
  decide

theorem isRoutePattern_shape (re : Regex) (h : isRoutePattern re = true) :
    ∃ suf, re = .groupOpen :: .lazy .dot :: .groupClose :: .one (.chr '/') :: suf ∧
      capFree suf = true := by
  simp only [isRoutePattern, Bool.and_eq_true, decide_eq_true_eq] at h
  refine ⟨re.drop 4, ?_, h.2⟩
  have := List.take_append_drop 4 re
  rw [h.1] at this
  exact this.symm

/-- What a route pattern does at a fixed start: the group takes a newline-free run `pre`, and
the rest of the pattern, which begins with `/`, matches what follows. -/
theorem routePattern_matchAt (suf : Regex) (hfree : capFree suf = true) (s : GoString)
    (m : GoString × GoString)
    (h : matchAt (.groupOpen :: .lazy .dot :: .groupClose :: .one (.chr '/') :: suf) s = some m) :
    ∃ pre t, s = pre ++ '/' :: t ∧ (∀ x ∈ pre, x ≠ '\n') ∧ m.2 = pre ∧
      (matchNodes suf ⟨[], []⟩ t).isSome = true := by
  obtain ⟨c, rest, hm, e⟩ := matchAt_some _ s m h
  simp only [matchNodes] at hm
  obtain ⟨pre, t, hs, hpre, hk⟩ := lazyLoop_sound _ _ s _ hm
  cases t with
  | nil => simp [matchNodes] at hk
  | cons z t =>
    by_cases hz : z = '/'
    · subst hz
      simp only [matchNodes, Atom.test, decide_True, if_true] at hk
      rw [matchNodes_capFree suf hfree] at hk
      cases hk2 : matchNodes suf ⟨[], []⟩ t with
      | none => rw [hk2] at hk; simp at hk
      | some p =>
        rw [hk2] at hk
        simp only [Option.map_some', Option.some.injEq, Prod.mk.injEq] at hk
        refine ⟨pre, t, hs, ?_, ?_, by rw [hk2]; rfl⟩
        · intro x hx
          simpa [Atom.test] using hpre x hx
        · rw [e, ← hk.1]
          simp [hs]
    · simp [matchNodes, Atom.test, hz] at hk

theorem routePattern_matchAt_complete (suf : Regex) (hfree : capFree suf = true)
    (pre t : GoString) (hpre : ∀ x ∈ pre, x ≠ '\n')
    (ht : (matchNodes suf ⟨[], []⟩ t).isSome = true) :
    (matchAt (.groupOpen :: .lazy .dot :: .groupClose :: .one (.chr '/') :: suf)
      (pre ++ '/' :: t)).isSome = true := by
  rw [matchAt_isSome]
  simp only [matchNodes]
  apply lazyLoop_complete
  · intro x hx
    simpa [Atom.test] using hpre x hx
  · simp only [matchNodes, Atom.test, decide_True, if_true]
    rw [matchNodes_capFree suf hfree]
    cases hk2 : matchNodes suf ⟨[], []⟩ t with
    | none => rw [hk2] at ht; simp at ht
    | some p => rfl

theorem services_end_with_eot : ∀ route ∈ services, endsWithEot route.1 = true := by
  decide

/-- A pattern that ends in `$` leaves no input behind. -/
theorem matchNodes_eot_rest (re : Regex) (he : endsWithEot re = true) (c : Caps)
    (s : GoString) (r : Caps × GoString) (h : matchNodes re c s = some r) : r.2 = [] := by
  simp only [endsWithEot, decide_eq_true_eq] at he
  obtain ⟨x, hx⟩ := List.getLast?_eq_some_iff.mp he
  rw [hx] at h
  obtain ⟨c2, t, _, hm⟩ := matchNodes_append_sound x [.eot] c s r h
  simp only [matchNodes] at hm
  by_cases ht : t = []
  · simp only [ht, if_true, Option.some.injEq] at hm
    rw [← hm]
  · simp [ht] at hm

theorem matchAt_whole (re : Regex) (he : endsWithEot re = true) (s : GoString)
    (m : GoString × GoString) (h : matchAt re s = some m) : m.1 = s := by
  obtain ⟨c, rest, hm, e⟩ := matchAt_some re s m h
  have hr : rest = [] := matchNodes_eot_rest re he _ s _ hm
  rw [e, hr]
  simp

theorem last_slash (l : GoString) (h : '/' ∈ l) :
    ∃ a b, l = a ++ '/' :: b ∧ ∀ c ∈ b, c ≠ '/' := by
  induction l with
  | nil => simp at h
  | cons z t ih =>
    by_cases ht : '/' ∈ t
    · obtain ⟨a, b, e, hb⟩ := ih ht
      exact ⟨z :: a, b, by rw [e]; rfl, hb⟩
    · have hz : z = '/' := by
        rcases List.mem_cons.mp h with h1 | h1
        · exact h1.symm
        · exact absurd h1 ht
      exact ⟨[], t, by rw [hz]; rfl, fun c hc e => ht (e ▸ hc)⟩

theorem beforeLastSlash_eq (a b : GoString) (hb : ∀ c ∈ b, c ≠ '/') :
    beforeLastSlash (a ++ '/' :: b) = a := by
  unfold beforeLastSlash
  have h1 : (a ++ '/' :: b).reverse = b.reverse ++ '/' :: a.reverse := by simp
  rw [h1, List.dropWhile_append_of_pos (by
    intro c hc
    have := hb c (List.mem_reverse.mp hc)
    simpa using this)]
  simp [List.dropWhile]

/-- With no newline before the last `/`, a route pattern that matches the path matches it
from its first character: the group is the front of the path and the matched text is the
whole path. -/
theorem routePattern_front (route : Regex × Service) (path : GoString)
    (m : GoString × GoString) (hroute : route ∈ services)
    (hnl : ∀ x ∈ beforeLastSlash path, x ≠ '\n')
    (hm : FindStringSubmatch route.1 path = some m) :
    m.1 = path ∧ ∃ file, path = m.2 ++ '/' :: file := by
  obtain ⟨suf, hre, hfree⟩ := isRoutePattern_shape _ (services_are_route_patterns route hroute)
  have heot := services_end_with_eot route hroute
  rw [hre] at hm heot
  obtain ⟨skipped, t, hs, hat⟩ := find_sound _ _ _ hm
  obtain ⟨pre, t2, ht, _, _, hsuf⟩ := routePattern_matchAt suf hfree t _ hat
  obtain ⟨a, b, hab, hb⟩ := last_slash ('/' :: t2) (List.mem_cons_self _ _)
  have hfront : (matchAt (.groupOpen :: .lazy .dot :: .groupClose :: .one (.chr '/') :: suf)
      path).isSome = true := by
    have e : path = (skipped ++ pre) ++ '/' :: t2 := by rw [hs, ht]; simp
    have e2 : path = (skipped ++ pre ++ a) ++ '/' :: b := by
      rw [e, hab]; simp
    have hbl : beforeLastSlash path = skipped ++ pre ++ a := by
      rw [e2]; exact beforeLastSlash_eq _ _ hb
    rw [e]
    apply routePattern_matchAt_complete suf hfree _ _ _ hsuf
    intro x hx
    exact hnl x (by rw [hbl]; exact List.mem_append_left _ hx)
  obtain ⟨m2, hm2⟩ := Option.isSome_iff_exists.mp hfront
  have hsame : m = m2 := by
    have := find_of_matchAt _ _ _ hm2
    rw [hm] at this
    exact Option.some.inj this
  subst hsame
  obtain ⟨pre2, t3, hp, _, hcap, _⟩ := routePattern_matchAt suf hfree path _ hm2
  exact ⟨matchAt_whole _ heot path m hm2, t3, by rw [hcap]; exact hp⟩

theorem sendFile_handlerCalls (env : Env) (ct : GoString) (hr : HandlerReq) (wd : World) :
    handlerCalls (sendFile env ct hr wd).events = handlerCalls wd.events := by
  have happ : ∀ a b : List Event, handlerCalls (a ++ b) = handlerCalls a ++ handlerCalls b := by
    intro a b
    induction a with
    | nil => rfl
    | cons ev t ih => cases ev <;> simp [handlerCalls, ih]
  cases hst : env.stat (pathJoin hr.Dir hr.File) <;>
    simp [sendFile, hst, World.onW, World.log, happ, handlerCalls]

theorem handlerCalls_log (wd : World) (e : Event) :
    handlerCalls (wd.log e).events = handlerCalls wd.events ++ handlerCalls [e] := by
  simp only [World.log]
  induction wd.events with
  | nil => simp [handlerCalls]
  | cons ev t ih => cases ev <;> simp [handlerCalls, ih]

/-- No handler records a handler call of its own: the only record is the one the dispatcher
makes when it calls the handler. -/
theorem run_handlerCalls (h : HandlerId) (env : Env) (hr : HandlerReq) (wd : World) :
    handlerCalls (h.run env hr wd).events = handlerCalls wd.events := by
  cases h with
  | serviceRpc =>
    simp only [HandlerId.run, serviceRpc, serviceRpcBody]
    rw [handlerCalls_log]
    split_ifs <;> (try split) <;> (try split_ifs) <;>
      simp [World.onW, handlerCalls_log, handlerCalls]
  | getInfoRefs =>
    simp only [HandlerId.run, getInfoRefs]
    split_ifs
    · rw [sendFile_handlerCalls]
      simp [updateServerInfo, gitCommand, World.onW, handlerCalls_log, handlerCalls]
    · simp [gitCommand, World.onW, handlerCalls_log, handlerCalls]
  | getTextFile => simp [HandlerId.run, getTextFile, sendFile_handlerCalls, World.onW]
  | getInfoPacks => simp [HandlerId.run, getInfoPacks, sendFile_handlerCalls, World.onW]
  | getLooseObject => simp [HandlerId.run, getLooseObject, sendFile_handlerCalls, World.onW]
  | getPackFile => simp [HandlerId.run, getPackFile, sendFile_handlerCalls, World.onW]
  | getIdxFile => simp [HandlerId.run, getIdxFile, sendFile_handlerCalls, World.onW]

theorem getRepoGitDir_handlerCalls (env : Env) (p : GoString) (wd : World) :
    handlerCalls (getRepoGitDir env p wd).1.events = handlerCalls wd.events := by
  unfold getRepoGitDir
  simp only []
  split_ifs <;> (try split) <;> (try split_ifs) <;>
    simp [handlerCalls_log, handlerCalls]

/-- The handler call that the loop body makes once the pattern has matched, the method agrees
and the repository directory is resolved: the `File` it hands over is the request path with
the first `m[1]/` removed. -/
theorem serveMatch_handlerCalls (env : Env) (r : Request) (svc : Service)
    (m : GoString × GoString) (dir : GoString) (hmeth : svc.Method = r.Method)
    (hdir : (getRepoGitDir env m.2 ⟨ResponseWriter.fresh, [], false⟩).2 = some dir) :
    handlerCalls (serveMatch env r svc m ⟨ResponseWriter.fresh, [], false⟩).events
      = [(svc.Handler, svc.Rpc, dir, stringsReplaceFirst r.Path (m.2 ++ "/".toList) [])] := by
  have hne : ¬ svc.Method ≠ r.Method := fun h => h hmeth
  have hg := getRepoGitDir_handlerCalls env m.2 ⟨ResponseWriter.fresh, [], false⟩
  simp only [serveMatch, if_neg hne]
  cases hres : getRepoGitDir env m.2 ⟨ResponseWriter.fresh, [], false⟩ with
  | mk wd1 od =>
    rw [hres] at hdir hg
    simp only at hdir hg
    subst hdir
    simp only []
    rw [run_handlerCalls, handlerCalls_log, hg]
    rfl

/-- C9, as stated, fails: the pattern of the HEAD route matches the path `/a<newline>b/HEAD`
(the decoded path of `GET /a%0Ab/HEAD`); the group captures `b`, which is not at the front of
the path, and the residual path that the dispatcher computes and hands to the handler is
`/a<newline>HEAD`, not `HEAD`. -/
theorem capture_not_at_front :
    FindStringSubmatch (lazyGroup ++ lit "/HEAD" ++ [.eot]) demoNewlinePath
      = some ("b/HEAD".toList, "b".toList) ∧
    ¬ ("b".toList <+: demoNewlinePath) ∧
    stringsReplaceFirst demoNewlinePath ("b".toList ++ "/".toList) [] = "/a\nHEAD".toList ∧
    "b".toList ++ "/".toList ++ "/a\nHEAD".toList ≠ demoNewlinePath ∧
    handlerCalls (Handler demoEnv services ResponseWriter.fresh demoNewline).events
      = [(.getTextFile, [], "/srv/b".toList, "/a\nHEAD".toList)] := by
  decide

/-- C9, amended: for every request path that has no newline before its last `/` and matches
the pattern of a route of the table, the captured group `m[1]` is at the front of the path,
and the residual file path that the dispatcher computes and hands to the handler in the field
`File` is the path with that group and the one following `/` stripped from the front: the
path is `m[1]`, then `/`, then the residual, and since the matched text `m[0]` is the whole
path, the residual is what the route's suffix matched, without its leading slash.
(`/repo.git/HEAD` gives `/repo.git` and `HEAD`; `/a/b/objects/info/packs` gives `/a/b` and
`objects/info/packs`.) -/
theorem residual_path (route : Regex × Service) (r : Request) (m : GoString × GoString)
    (hroute : route ∈ services)
    (hnl : ∀ x ∈ beforeLastSlash r.Path, x ≠ '\n')
    (hm : FindStringSubmatch route.1 r.Path = some m) :
    m.2 <+: r.Path ∧
    (∃ file : GoString,
      r.Path = m.2 ++ "/".toList ++ file ∧
      m.1 = m.2 ++ "/".toList ++ file ∧
      stringsReplaceFirst r.Path (m.2 ++ "/".toList) [] = file ∧
      ∀ (env : Env) (order pre post : List (Regex × Service)) (dir : GoString),
        order.Perm services → order = pre ++ route :: post →
        (∀ x ∈ pre, FindStringSubmatch x.1 r.Path = none) →
        route.2.Method = r.Method →
        (getRepoGitDir env m.2 ⟨ResponseWriter.fresh, [], false⟩).2 = some dir →
        handlerCalls (Handler env order ResponseWriter.fresh r).events
          = [(route.2.Handler, route.2.Rpc, dir, file)]) ∧
    handlerCalls (Handler demoEnv services ResponseWriter.fresh demoHead).events
      = [(.getTextFile, [], "/srv/repo.git".toList, "HEAD".toList)] ∧
    handlerCalls (Handler demoEnv services ResponseWriter.fresh demoNestedPacks).events
      = [(.getInfoPacks, [], "/srv/a/b".toList, "objects/info/packs".toList)] := by
  obtain ⟨hwhole, file, hp⟩ := routePattern_front route r.Path m hroute hnl hm
  have hres : stringsReplaceFirst r.Path (m.2 ++ "/".toList) [] = file := by
    have e : r.Path = (m.2 ++ "/".toList) ++ file := by rw [hp]; simp
    conv => lhs; arg 1; rw [e]
    rw [stringsReplaceFirst_front]
    rfl
  have hp2 : r.Path = m.2 ++ "/".toList ++ file := by rw [hp]; simp
  refine ⟨⟨'/' :: file, hp.symm⟩, ⟨file, hp2, by rw [hwhole]; exact hp2, hres, ?_⟩,
    by decide, by decide⟩
  intro env order pre post dir _ horder hpre hmeth hdir
  obtain ⟨re, svc⟩ := route
  rw [Handler, horder, serveRoutes_first_match env r pre post re svc m _ hpre hm,
    serveMatch_handlerCalls env r svc m dir hmeth hdir, hres]

theorem residual_path_witness :
    "/repo.git".toList <+: demoNewlineName.Path ∧
    (∃ file : GoString,
      demoNewlineName.Path = "/repo.git".toList ++ "/".toList ++ file ∧
      demoNewlineName.Path = "/repo.git".toList ++ "/".toList ++ file ∧
      stringsReplaceFirst demoNewlineName.Path ("/repo.git".toList ++ "/".toList) [] = file ∧
      ∀ (env : Env) (order pre post : List (Regex × Service)) (dir : GoString),
        order.Perm services → order = pre ++ genericInfoRoute :: post →
        (∀ x ∈ pre, FindStringSubmatch x.1 demoNewlineName.Path = none) →
        genericInfoRoute.2.Method = demoNewlineName.Method →
        (getRepoGitDir env "/repo.git".toList ⟨ResponseWriter.fresh, [], false⟩).2 = some dir →
        handlerCalls (Handler env order ResponseWriter.fresh demoNewlineName).events
          = [(genericInfoRoute.2.Handler, genericInfoRoute.2.Rpc, dir, file)]) ∧
    handlerCalls (Handler demoEnv services ResponseWriter.fresh demoHead).events
      = [(.getTextFile, [], "/srv/repo.git".toList, "HEAD".toList)] ∧
    handlerCalls (Handler demoEnv services ResponseWriter.fresh demoNestedPacks).events
      = [(.getInfoPacks, [], "/srv/a/b".toList, "objects/info/packs".toList)] :=
  residual_path genericInfoRoute demoNewlineName
    ("/repo.git/objects/info/a\nb".toList, "/repo.git".toList)
    (by decide) (by decide) (by decide)

/-! ## Theorems: which patterns of the table can match the same path -/

theorem litRun_sound (re : Regex) (l : GoString) (c : Caps) (s : GoString)
    (r : Caps × GoString) (hl : litRun re = some l) (h : matchNodes re c s = some r) :
    s = l := by
  induction re generalizing l s with
  | nil => simp [litRun] at hl
  | cons n re ih =>
    cases n with
    | one a =>
      cases a with
      | chr z =>
        simp only [litRun, Option.map_eq_some'] at hl
        obtain ⟨l2, hl2, e⟩ := hl
        cases s with
        | nil => simp [matchNodes] at h
        | cons y t =>
          by_cases hy : y = z
          · simp only [matchNodes, Atom.test, hy, decide_True, if_true] at h
            rw [← e, hy, ih l2 t hl2 h]
          · simp [matchNodes, Atom.test, hy] at h
      | dot => simp [litRun] at hl
      | cls neg ranges => simp [litRun] at hl
    | eot =>
      cases re with
      | nil =>
        simp only [litRun, Option.some.injEq] at hl
        by_cases hs : s = []
        · rw [hs, ← hl]
        · simp [matchNodes, hs] at h
      | cons n2 re2 => simp [litRun] at hl
    | rep a k => simp [litRun] at hl
    | star a => simp [litRun] at hl
    | lazy a => simp [litRun] at hl
    | groupOpen => simp [litRun] at hl
    | groupClose => simp [litRun] at hl

theorem tailLit_suffix (re : Regex) (c : Caps) (s : GoString) (r : Caps × GoString)
    (h : matchNodes re c s = some r) : tailLit re <:+ s := by
  induction re generalizing c s with
  | nil => exact List.nil_suffix
  | cons n re ih =>
    cases hl : litRun (n :: re) with
    | some l =>
      have e := litRun_sound _ l c s r hl h
      simp only [tailLit, hl]
      rw [e]
    | none =>
      simp only [tailLit, hl]
      obtain ⟨c2, t, ht, hm⟩ := matchNodes_append_sound [n] re c s r h
      exact (ih c2 t hm).trans ht

theorem isFinalRep_shape (re : Regex) (a : Atom) (h : isFinalRep re = some a) :
    ∃ k, re = [.rep a (k + 1), .eot] := by
  unfold isFinalRep at h
  split at h
  · simp only [Option.some.injEq] at h
    subst h
    exact ⟨_, rfl⟩
  · simp at h

theorem endClass_last (re : Regex) (a : Atom) (c : Caps) (s : GoString) (r : Caps × GoString)
    (ha : endClass re = some a) (h : matchNodes re c s = some r) :
    ∃ q z, s = q ++ [z] ∧ a.test z = true := by
  induction re generalizing c s with
  | nil => simp [endClass] at ha
  | cons n re ih =>
    cases hf : isFinalRep (n :: re) with
    | some b =>
      simp only [endClass, hf, Option.some.injEq] at ha
      subst ha
      obtain ⟨k, e⟩ := isFinalRep_shape _ b hf
      rw [e] at h
      simp only [matchNodes] at h
      cases ht : takeRep b (k + 1) s with
      | none => rw [ht] at h; simp at h
      | some t =>
        rw [ht] at h
        have ht0 : t = [] := by
          by_contra hne
          simp [hne] at h
        obtain ⟨x, e2, hlen, hx⟩ := takeRep_sound b (k + 1) s t ht
        rw [ht0, List.append_nil] at e2
        have hne : x ≠ [] := by
          intro h0; rw [h0] at hlen; simp at hlen
        refine ⟨x.dropLast, x.getLast hne, ?_, hx _ (List.getLast_mem hne)⟩
        rw [e2, List.dropLast_append_getLast]
    | none =>
      simp only [endClass, hf] at ha
      obtain ⟨c2, t, ht, hm⟩ := matchNodes_append_sound [n] re c s r h
      obtain ⟨q, z, e, hz⟩ := ih c2 t ha hm
      obtain ⟨w, hw⟩ := ht
      exact ⟨w ++ q, z, by rw [← hw, e, List.append_assoc], hz⟩

/-- What a matching pattern says about the end of the path. -/
theorem routeMatches_end (re : Regex) (p : GoString) (h : routeMatches re p = true) :
    tailLit re <:+ p ∧ ∀ a, endClass re = some a → ∃ q z, p = q ++ [z] ∧ a.test z = true := by
  unfold routeMatches at h
  obtain ⟨m, hm⟩ := Option.isSome_iff_exists.mp h
  obtain ⟨skipped, t, e, hat⟩ := find_sound re p m hm
  obtain ⟨c, rest, hmn, _⟩ := matchAt_some re t m hat
  refine ⟨(tailLit_suffix re _ t _ hmn).trans ⟨skipped, e.symm⟩, ?_⟩
  intro a ha
  obtain ⟨q, z, e2, hz⟩ := endClass_last re a _ t _ ha hmn
  exact ⟨skipped ++ q, z, by rw [e, e2, List.append_assoc], hz⟩

theorem getLast?_of_suffix (l p q : GoString) (z y : Char) (hs : l <:+ p) (hp : p = q ++ [z])
    (hl : l.getLast? = some y) : y = z := by
  obtain ⟨w, hw⟩ := hs
  have h1 : p.getLast? = some z := by rw [hp]; simp
  have hne : l ≠ [] := by
    intro h0; rw [h0] at hl; simp at hl
  have h2 : p.getLast? = l.getLast? := by
    rw [← hw, List.getLast?_append_of_ne_nil _ hne]
  rw [h1, hl] at h2
  exact (Option.some.inj h2).symm

theorem lastAccepted_of_match (a b : Regex) (p : GoString) (ha : routeMatches a p = true)
    (hb : routeMatches b p = true) : lastAccepted a b = true := by
  unfold lastAccepted
  cases he : endClass a with
  | none => rfl
  | some cl =>
    cases hl : (tailLit b).getLast? with
    | none => rfl
    | some y =>
      obtain ⟨q, z, hp, hz⟩ := (routeMatches_end a p ha).2 cl he
      have := getLast?_of_suffix _ p q z y (routeMatches_end b p hb).1 hp hl
      simp only [this, hz]

theorem endsCompatible_of_match (a b : Regex) (p : GoString) (ha : routeMatches a p = true)
    (hb : routeMatches b p = true) : endsCompatible a b = true := by
  unfold endsCompatible
  have h1 := List.suffix_or_suffix_of_suffix (routeMatches_end a p ha).1
    (routeMatches_end b p hb).1
  simp only [Bool.and_eq_true, Bool.or_eq_true, decide_eq_true_eq]
  exact ⟨⟨h1, lastAccepted_of_match a b p ha hb⟩, lastAccepted_of_match b a p hb ha⟩

set_option maxRecDepth 100000 in
theorem services_ends_incompatible :
    ∀ r1 ∈ services, ∀ r2 ∈ services, endsCompatible r1.1 r2.1 = true →
      r1 = r2 ∨ r1 = genericInfoRoute ∨ r2 = genericInfoRoute := by
  decide

theorem matchNodes_litChars (l : GoString) (rest : Regex) (c : Caps) (s : GoString) :
    matchNodes (l.map (fun z => Node.one (.chr z)) ++ rest) c (l ++ s) = matchNodes rest c s := by
  induction l with
  | nil => rfl
  | cons z l ih =>
    simp only [List.map_cons, List.cons_append, matchNodes, Atom.test, decide_True, if_true]
    exact ih

theorem matchNodes_lit (text : String) (rest : Regex) (c : Caps) (s : GoString) :
    matchNodes (lit text ++ rest) c (text.toList ++ s) = matchNodes rest c s :=
  matchNodes_litChars text.toList rest c s

theorem greedyLoop_all {R : Type} (a : Atom) (k : GoString → Option R) (s : GoString)
    (hs : ∀ z ∈ s, a.test z = true) (hk : (k []).isSome = true) :
    (greedyLoop a k s).isSome = true := by
  induction s with
  | nil => exact hk
  | cons z t ih =>
    have hz : a.test z = true := hs z (List.mem_cons_self _ _)
    have ih2 := ih (fun y hy => hs y (List.mem_cons_of_mem _ hy))
    simp only [greedyLoop, hz, if_true]
    cases hg : greedyLoop a k t with
    | some r => rfl
    | none => rw [hg] at ih2; exact absurd ih2 (by simp)

theorem hexClass_test (z : Char) : hexClass.test z = isLowerHex z := by
  simp [hexClass, Atom.test, isLowerHex]

theorem notSlash_test (z : Char) (h : z ≠ '/') : notSlash.test z = true := by
  have h1 : ¬ ('/' ≤ z ∧ z ≤ '/') := by
    rintro ⟨a, b⟩
    exact h (Char.le_antisymm b a)
  simp only [notSlash, Atom.test, List.any_cons, List.any_nil, Bool.or_false]
  by_cases h2 : '/' ≤ z
  · have h3 : ¬ z ≤ '/' := fun b => h1 ⟨h2, b⟩
    simp [h2, h3]
  · simp [h2]

/-- A route pattern matches every path that ends with a text its part after the group
matches. -/
theorem routeMatches_of_tail (x : Regex) (pre s : GoString)
    (h : (matchNodes x ⟨s, s⟩ s).isSome = true) :
    routeMatches (lazyGroup ++ x) (pre ++ s) = true := by
  unfold routeMatches
  apply find_complete
  rw [matchAt_isSome]
  simp only [lazyGroup, List.cons_append, List.nil_append, matchNodes]
  have := lazyLoop_complete Atom.dot
    (fun t => matchNodes x { atOpen := s, atClose := t } t) [] s (by simp) h
  simpa using this

theorem surface_literal_matches (pre suf : GoString)
    (h : suf ∈ ["/git-upload-pack".toList, "/git-receive-pack".toList, "/info/refs".toList,
      "/HEAD".toList, "/objects/info/alternates".toList,
      "/objects/info/http-alternates".toList, "/objects/info/packs".toList]) :
    ∃ route ∈ services, routeMatches route.1 (pre ++ suf) = true := by
  simp only [List.mem_cons, List.mem_singleton, List.not_mem_nil, or_false] at h
  rcases h with rfl | rfl | rfl | rfl | rfl | rfl | rfl
  · refine ⟨(lazyGroup ++ lit "/git-upload-pack" ++ [.eot],
      ⟨"POST".toList, .serviceRpc, "upload-pack".toList⟩), by decide, ?_⟩
    rw [List.append_assoc]
    exact routeMatches_of_tail _ _ _ (by decide)
  · refine ⟨(lazyGroup ++ lit "/git-receive-pack" ++ [.eot],
      ⟨"POST".toList, .serviceRpc, "receive-pack".toList⟩), by decide, ?_⟩
    rw [List.append_assoc]
    exact routeMatches_of_tail _ _ _ (by decide)
  · refine ⟨(lazyGroup ++ lit "/info/refs" ++ [.eot],
      ⟨"GET".toList, .getInfoRefs, []⟩), by decide, ?_⟩
    rw [List.append_assoc]
    exact routeMatches_of_tail _ _ _ (by decide)
  · refine ⟨(lazyGroup ++ lit "/HEAD" ++ [.eot],
      ⟨"GET".toList, .getTextFile, []⟩), by decide, ?_⟩
    rw [List.append_assoc]
    exact routeMatches_of_tail _ _ _ (by decide)
  · refine ⟨(lazyGroup ++ lit "/objects/info/alternates" ++ [.eot],
      ⟨"GET".toList, .getTextFile, []⟩), by decide, ?_⟩
    rw [List.append_assoc]
    exact routeMatches_of_tail _ _ _ (by decide)
  · refine ⟨(lazyGroup ++ lit "/objects/info/http-alternates" ++ [.eot],
      ⟨"GET".toList, .getTextFile, []⟩), by decide, ?_⟩
    rw [List.append_assoc]
    exact routeMatches_of_tail _ _ _ (by decide)
  · refine ⟨(lazyGroup ++ lit "/objects/info/packs" ++ [.eot],
      ⟨"GET".toList, .getInfoPacks, []⟩), by decide, ?_⟩
    rw [List.append_assoc]
    exact routeMatches_of_tail _ _ _ (by decide)

theorem surface_generic_matches (pre name : GoString) (hn : ∀ c ∈ name, c ≠ '/') :
    routeMatches genericInfoRoute.1 (pre ++ ("/objects/info/".toList ++ name)) = true := by
  show routeMatches (lazyGroup ++ lit "/objects/info/" ++ [.star notSlash, .eot]) _ = true
  rw [List.append_assoc]
  apply routeMatches_of_tail
  rw [matchNodes_lit]
  simp only [matchNodes]
  apply greedyLoop_all
  · exact fun z hz => notSlash_test z (hn z hz)
  · simp [matchNodes]

theorem matchNodes_rep (a : Atom) (n : Nat) (rest : Regex) (c : Caps) (x s : GoString)
    (hx : x.length = n) (hall : ∀ z ∈ x, a.test z = true) :
    matchNodes ([.rep a n] ++ rest) c (x ++ s) = matchNodes rest c s := by
  have h := takeRep_complete a x s hall
  rw [hx] at h
  show matchNodes (.rep a n :: rest) c (x ++ s) = matchNodes rest c s
  simp only [matchNodes, h]

theorem matchNodes_eot (c : Caps) : (matchNodes [.eot] c []).isSome = true := by
  simp [matchNodes]

theorem surface_loose_matches (pre x y : GoString) (hx : x.length = 2) (hy : y.length = 38)
    (hxh : ∀ c ∈ x, isLowerHex c = true) (hyh : ∀ c ∈ y, isLowerHex c = true) :
    routeMatches
      (lazyGroup ++ lit "/objects/" ++ [.rep hexClass 2] ++ lit "/" ++ [.rep hexClass 38, .eot])
      (pre ++ ("/objects/".toList ++ x ++ "/".toList ++ y)) = true := by
  simp only [List.append_assoc]
  apply routeMatches_of_tail
  rw [matchNodes_lit,
    matchNodes_rep _ _ _ _ _ _ hx (fun z hz => by rw [hexClass_test]; exact hxh z hz),
    matchNodes_lit]
  have e : y = y ++ [] := (List.append_nil y).symm
  conv => lhs; arg 1; arg 3; rw [e]
  rw [show ([Node.rep hexClass 38, Node.eot] : Regex) = [.rep hexClass 38] ++ [.eot] from rfl,
    matchNodes_rep _ _ _ _ _ _ hy (fun z hz => by rw [hexClass_test]; exact hyh z hz)]
  exact matchNodes_eot _

theorem surface_pack_matches (pre x : GoString) (ext : String) (hx : x.length = 40)
    (hxh : ∀ c ∈ x, isLowerHex c = true) :
    routeMatches
      (lazyGroup ++ lit "/objects/pack/pack-" ++ [.rep hexClass 40] ++ lit ext ++ [.eot])
      (pre ++ ("/objects/pack/pack-".toList ++ x ++ ext.toList)) = true := by
  simp only [List.append_assoc]
  apply routeMatches_of_tail
  rw [matchNodes_lit,
    matchNodes_rep _ _ _ _ _ _ hx (fun z hz => by rw [hexClass_test]; exact hxh z hz)]
  have e : ext.toList = ext.toList ++ [] := (List.append_nil _).symm
  conv => lhs; arg 1; arg 3; rw [e]
  rw [matchNodes_lit]
  exact matchNodes_eot _

/-- C10, as stated, fails: `/repo.git/objects/info/packs` is a repository prefix followed by
the suffix `/objects/info/packs` of the surface table, and two patterns of the route table
match it (`(.*?)/objects/info/packs$` and `(.*?)/objects/info/[^/]*$`), not exactly one. -/
theorem two_routes_match_info_packs :
    surfaceSuffix "/objects/info/packs".toList ∧
    services.filter (fun route =>
        routeMatches route.1 ("/repo.git".toList ++ "/objects/info/packs".toList))
      = [(lazyGroup ++ lit "/objects/info/packs" ++ [.eot],
            ⟨"GET".toList, .getInfoPacks, []⟩), genericInfoRoute] :=
  ⟨Or.inl (by decide), by decide⟩

/-- C10, amended: for every request path made of a repository prefix followed by one of the
suffixes of the HTTP surface table, at least one of the eleven patterns of the route table
matches the path, and any two different routes whose patterns both match it include the
generic route `(.*?)/objects/info/[^/]*$`: among the other ten patterns at most one matches.
So the route, its method and its captured prefix are determined by the path alone unless the
generic pattern matches together with another one; then they depend on which is tried first. -/
theorem route_overlap_only_with_generic (pre suf : GoString) (hs : surfaceSuffix suf) :
    (∃ route ∈ services, routeMatches route.1 (pre ++ suf) = true) ∧
    (∀ r1 ∈ services, ∀ r2 ∈ services,
      routeMatches r1.1 (pre ++ suf) = true → routeMatches r2.1 (pre ++ suf) = true →
      r1 = r2 ∨ r1 = genericInfoRoute ∨ r2 = genericInfoRoute) := by
  constructor
  · rcases hs with h | ⟨name, hn, rfl⟩ | ⟨x, y, hx, hy, hxh, hyh, rfl⟩ | ⟨x, hx, hxh, rfl⟩ |
      ⟨x, hx, hxh, rfl⟩
    · exact surface_literal_matches pre suf h
    · exact ⟨genericInfoRoute, by decide, surface_generic_matches pre name hn⟩
    · exact ⟨(_, ⟨"GET".toList, .getLooseObject, []⟩), by decide,
        surface_loose_matches pre x y hx hy hxh hyh⟩
    · exact ⟨(_, ⟨"GET".toList, .getPackFile, []⟩), by decide,
        surface_pack_matches pre x ".pack" hx hxh⟩
    · exact ⟨(_, ⟨"GET".toList, .getIdxFile, []⟩), by decide,
        surface_pack_matches pre x ".idx" hx hxh⟩
  · intro r1 h1 r2 h2 m1 m2
    exact services_ends_incompatible r1 h1 r2 h2 (endsCompatible_of_match _ _ _ m1 m2)

theorem route_overlap_only_with_generic_witness :
    (∃ route ∈ services,
      routeMatches route.1 ("/repo.git".toList ++ "/objects/info/packs".toList) = true) ∧
    (∀ r1 ∈ services, ∀ r2 ∈ services,
      routeMatches r1.1 ("/repo.git".toList ++ "/objects/info/packs".toList) = true →
      routeMatches r2.1 ("/repo.git".toList ++ "/objects/info/packs".toList) = true →
      r1 = r2 ∨ r1 = genericInfoRoute ∨ r2 = genericInfoRoute) :=
  route_overlap_only_with_generic "/repo.git".toList "/objects/info/packs".toList
    (Or.inl (by decide))

end FacegitHttp
